import Mathlib

/-!
Verification of the `json_schema_validator` package (`main.py`) against its
natural-language specification.

The whole package is a single Python module built around overloaded equality:
a schema node is an instance of an `AnyBase` subclass (`AnyDict`, `AnyList`,
`AnySet`, `AnyType`, `AnyUnion`, `Anything`) whose `__eq__`/`__req__`
delegate to an `eq` method, and `JsonValidator.validate(obj)` is just
`self.schema == obj`.

We embed the dynamically typed runtime values that can reach those
comparisons as one inductive type `Py`: JSON-like plain values, the
`Ellipsis` sentinel, the six type objects that can be stored in
`AnyType.type_`, and the six schema-node classes.  Python's `a == b`
dispatch (left operand first, reflected operand second) is translated as the
single function `pyEq`, with one match arm per `eq` method and per plain
comparison that CPython performs.

Modelling notes, fixed here once and for all:
  * machine numbers: Python ints are unbounded, so `Int` is exact.  Floats
    only ever matter to the claims through their runtime *kind*
    (`isinstance` checks); the payload is kept abstract as an integer-valued
    magnitude, which also realises `1 == 1.0`.  No claim depends on
    non-integral float arithmetic.
  * dict keys: the keys that appear in schemas and candidates are strings,
    ints, and the `...` sentinel; Python dicts are embedded as
    insertion-ordered association lists over those keys.
  * `AnyList.eq` executes `required_items += [...]` on a local alias of
    `self.required_items`, which mutates the node in place.  The boolean
    result of each call is modelled by the pure `pyEq`; the state change of
    the attribute is modelled separately by `anyListRequiredAfter`, and the
    `Ext` relation below proves match results invariant under that mutation.
  * the only places the matcher can raise with debug off are
    `isinstance(other, self.type_)` with a non-type `type_` (modelled
    exactly by `anyTypeEqE`) and the construction-time checks of
    `AnyList.__init__` (modelled by `anyListInit`).  In the total function
    `pyEq` the unreachable-by-well-formed-schemas `isinstance` TypeError arm
    returns `false`.
-/

/-- Runtime kinds stored in `AnyType.type_`: the six classes listed in
`JsonValueType = t.Union[int, float, bool, str, dict, list]`. -/
inductive PyType where
  | int | float | bool | str | dict | list
  deriving DecidableEq, Repr

/-- Keys of embedded Python dicts: strings, ints, or the `...` sentinel
(used by `AnyDict` as its catch-all key). -/
inductive PyKey where
  | kStr (s : String)
  | kInt (n : Int)
  | kEll
  deriving DecidableEq, Repr

/-- The Python runtime values that can reach a comparison in `main.py`:
plain JSON-like data, the `Ellipsis` sentinel, type objects, and the six
schema-node classes with their constructor-stored fields. -/
inductive Py where
  | none
  | bool (b : Bool)
  | int (n : Int)
  | float (x : Int)
  | str (s : String)
  | list (xs : List Py)
  | dict (kvs : List (PyKey × Py))
  | set (xs : List Py)
  | ellipsis
  | typeTag (t : PyType)
  | anyDict (hasEllipsis : Bool) (requiredDict : List (PyKey × Py))
  | anyList (hasEllipsis : Bool) (requiredItems : List Py)
  | anySet (requiredItems : List Py)
  | anyType (type_ : Py)
  | anyUnion (objs : List Py)
  | anything
  deriving Repr

/-- Python `d.get(k)` / `k in d` on an association-list dict: first entry
with the given key. -/
def alookup (k : PyKey) (d : List (PyKey × Py)) : Option Py :=
  match d with
  | [] => Option.none
  | (k', v) :: rest => if k' = k then some v else alookup k rest

/-- Python `isinstance(v, t)` for the six classes of `JsonValueType`.
`isinstance(True, int)` is true in Python; `AnyType.eq` carves that case out
separately before calling `isinstance`. -/
def isinst (v : Py) (t : PyType) : Bool :=
  match v, t with
  | .bool _, .bool => true
  | .bool _, .int => true
  | .int _, .int => true
  | .float _, .float => true
  | .str _, .str => true
  | .list _, .list => true
  | .dict _, .dict => true
  | _, _ => false

/-- Sum of sizes of a pair, used by the termination argument of `pyEq`. -/
theorem sizeOf_snd_lt_of_mem {k : PyKey} {v : Py} {d : List (PyKey × Py)}
    (h : (k, v) ∈ d) : sizeOf v < sizeOf d := by
  have hlt := List.sizeOf_lt_of_mem h
  have : sizeOf (k, v) = 1 + sizeOf k + sizeOf v := rfl
  omega

theorem alookup_mem {k : PyKey} {v : Py} {d : List (PyKey × Py)}
    (h : alookup k d = some v) : (k, v) ∈ d := by
  induction d with
  | nil => simp [alookup] at h
  | cons kv rest ih =>
    obtain ⟨k', v'⟩ := kv
    by_cases hk : k' = k
    · subst hk
      simp [alookup] at h
      simp [h]
    · simp [alookup, hk] at h
      exact List.mem_cons_of_mem _ (ih h)

theorem sizeOf_alookup_getD {k : PyKey} {d : List (PyKey × Py)} :
    sizeOf ((alookup k d).getD Py.none) < 1 + sizeOf d := by
  have h0 : sizeOf Py.none = 1 := rfl
  have h1 : 1 ≤ sizeOf d := by cases d <;> simp +arith
  cases h : alookup k d with
  | none => simp [Option.getD]; omega
  | some v =>
    have := sizeOf_snd_lt_of_mem (alookup_mem h)
    simp [Option.getD]
    omega

theorem mem_getLast? {x : Py} {xs : List Py} (h : xs.getLast? = some x) :
    x ∈ xs := by
  cases xs with
  | nil => simp at h
  | cons y ys =>
    have := List.getLast?_eq_getLast (y :: ys) (by simp)
    rw [this] at h
    simp at h
    subst h
    exact List.getLast_mem _

theorem sizeOf_getLastD {xs : List Py} :
    sizeOf ((xs.getLast?).getD Py.none) < 1 + sizeOf xs := by
  have h0 : sizeOf Py.none = 1 := rfl
  have h1 : 1 ≤ sizeOf xs := by cases xs <;> simp +arith
  cases h : xs.getLast? with
  | none => simp [Option.getD]; omega
  | some v =>
    have := List.sizeOf_lt_of_mem (mem_getLast? h)
    simp [Option.getD]
    omega

/-- Membership in the effective (possibly Ellipsis-extended) item sequence
built inside `AnyList.eq`. -/
theorem mem_listEffective {x rep : Py} {req : List Py} {n : Nat}
    (h : x ∈ req ++ List.replicate n rep) : x ∈ req ∨ x = rep := by
  rcases List.mem_append.mp h with h' | h'
  · exact Or.inl h'
  · exact Or.inr (List.eq_of_mem_replicate h')

/-- Effective required pairs built inside `AnyDict.eq`: the explicit
non-Ellipsis entries of `self.required_dict`, extended (when the schema has
the catch-all key) by the catch-all item for every candidate key not
explicitly listed, in candidate order. -/
def dictEffective (he : Bool) (req d : List (PyKey × Py)) : List (PyKey × Py) :=
  let reqK := req.filter (fun kv => decide (kv.1 ≠ PyKey.kEll))
  let rep := (alookup PyKey.kEll req).getD Py.none
  if he then
    reqK ++ ((d.map Prod.fst).filter
      (fun k => !(reqK.map Prod.fst).contains k)).map (fun k => (k, rep))
  else reqK

/-- Effective required items built inside `AnyList.eq`: the stored items,
extended (when the schema has the trailing-Ellipsis flag) by repeating the
last stored item up to the candidate length. -/
def listEffective (he : Bool) (req xs : List Py) : List Py :=
  if he then
    req ++ List.replicate (xs.length - req.length) ((req.getLast?).getD Py.none)
  else req

/-- Values iterated over by `AnyDict.eq` are values of `self.required_dict`
or the catch-all item. -/
theorem sizeOf_mem_dictEffective {kv : PyKey × Py} {req d : List (PyKey × Py)}
    {he : Bool} (h : kv ∈ dictEffective he req d) : sizeOf kv.2 < 1 + sizeOf req := by
  have hrep : sizeOf ((alookup PyKey.kEll req).getD Py.none) < 1 + sizeOf req :=
    sizeOf_alookup_getD
  have hmain : kv ∈ req.filter (fun kv => decide (kv.1 ≠ PyKey.kEll)) ∨
      kv.2 = (alookup PyKey.kEll req).getD Py.none := by
    unfold dictEffective at h
    split at h
    · rcases List.mem_append.mp h with h1 | h1
      · exact Or.inl h1
      · obtain ⟨k1, _, heq⟩ := List.mem_map.mp h1
        right
        rw [← heq]
    · exact Or.inl h
  rcases hmain with h1 | h1
  · have := sizeOf_snd_lt_of_mem (List.mem_of_mem_filter h1)
    omega
  · rw [h1]; exact hrep

/-- Items iterated over by `AnyList.eq` are stored items or the repeated
last item. -/
theorem sizeOf_mem_listEffective {x : Py} {req xs : List Py} {he : Bool}
    (h : x ∈ listEffective he req xs) : sizeOf x < 1 + sizeOf req := by
  have hmain : x ∈ req ∨ x = (req.getLast?).getD Py.none := by
    unfold listEffective at h
    split at h
    · exact mem_listEffective h
    · exact Or.inl h
  rcases hmain with h1 | h1
  · have := List.sizeOf_lt_of_mem h1
    omega
  · rw [h1]; exact sizeOf_getLastD

/--
Python `a == b` as executed by `main.py` with `DEBUG = False`.

CPython tries `a.__eq__(b)` first and the reflected `b.__eq__(a)` when the
left operand's comparison is not implemented.  Every `AnyBase` subclass
implements both `__eq__` and `__req__` through its `eq` method, so a
comparison with a schema node on either side runs that node's `eq`; the node
on the *left* wins when both sides are nodes.  `pyEq` is the dispatch,
`pyEqRefl` the reflected dispatch plus the plain CPython comparisons
(`bool`/`int`/`float` compare numerically, so `True == 1` and `1 == 1.0`;
lists and dicts compare recursively), and `anyDictEq`, `anyListEqB`,
`anySetEq`, `anyUnionEq` are the `eq` methods of the corresponding classes.
`AnyType.eq` and `Anything.eq` do not recurse and are defined separately.
-/
def anyTypeEq (ty other : Py) : Bool :=
  match ty, other with
  | .typeTag .int, .bool _ => false
  | .typeTag t, o => isinst o t
  | _, _ => false

mutual

/-- Python `a == b` (debug off): left-operand dispatch. -/
def pyEq (a b : Py) : Bool :=
  match a with
  | .anyDict he req => anyDictEq he req b
  | .anyList he req => anyListEqB he req b
  | .anySet req => anySetEq req b
  | .anyType ty => anyTypeEq ty b
  | .anyUnion objs => anyUnionEq objs b
  | .anything => true
  | .none => pyEqRefl .none b
  | .bool x => pyEqRefl (.bool x) b
  | .int n => pyEqRefl (.int n) b
  | .float n => pyEqRefl (.float n) b
  | .str s => pyEqRefl (.str s) b
  | .list xs => pyEqRefl (.list xs) b
  | .dict d => pyEqRefl (.dict d) b
  | .set xs => pyEqRefl (.set xs) b
  | .ellipsis => pyEqRefl .ellipsis b
  | .typeTag t => pyEqRefl (.typeTag t) b
termination_by 2 * (sizeOf a + sizeOf b) + 1
decreasing_by
  all_goals simp_wf
  all_goals omega

/-- Python `a == b` when `a` is a plain value: reflected dispatch into the
right operand's `eq` when it is a schema node, otherwise CPython's plain
comparisons. -/
def pyEqRefl (a b : Py) : Bool :=
  match b with
  | .anyDict he req => anyDictEq he req a
  | .anyList he req => anyListEqB he req a
  | .anySet req => anySetEq req a
  | .anyType ty => anyTypeEq ty a
  | .anyUnion objs => anyUnionEq objs a
  | .anything => true
  | .none => (match a with | .none => true | _ => false)
  | .bool y =>
    (match a with
     | .bool x => x == y
     | .int n => n == (if y then (1 : Int) else 0)
     | .float n => n == (if y then (1 : Int) else 0)
     | _ => false)
  | .int m =>
    (match a with
     | .bool x => (if x then (1 : Int) else 0) == m
     | .int n => n == m
     | .float n => n == m
     | _ => false)
  | .float m =>
    (match a with
     | .bool x => (if x then (1 : Int) else 0) == m
     | .int n => n == m
     | .float n => n == m
     | _ => false)
  | .str s2 => (match a with | .str s => s == s2 | _ => false)
  | .list ys =>
    (match a with
     | .list xs =>
       xs.length == ys.length && (xs.zip ys).attach.all (fun ⟨p, hp⟩ => pyEq p.1 p.2)
     | _ => false)
  | .dict d2 =>
    (match a with
     | .dict d1 =>
       d1.length == d2.length && d1.attach.all (fun ⟨kv, hkv⟩ =>
         match halo : alookup kv.1 d2 with
         | some w => pyEq kv.2 w
         | Option.none => false)
     | _ => false)
  | .set ys =>
    (match a with
     | .set xs =>
       xs.attach.all (fun ⟨x, hx⟩ => ys.attach.any (fun ⟨y, hy⟩ => pyEq x y)) &&
         ys.attach.all (fun ⟨y, hy⟩ => xs.attach.any (fun ⟨x, hx⟩ => pyEq y x))
     | _ => false)
  | .ellipsis => (match a with | .ellipsis => true | _ => false)
  | .typeTag t2 => (match a with | .typeTag t1 => t1 == t2 | _ => false)
termination_by 2 * (sizeOf a + sizeOf b)
decreasing_by
  all_goals simp_wf
  all_goals
    first
    | omega
    | (obtain ⟨hz1, hz2⟩ := List.of_mem_zip hp
       have hb1 := List.sizeOf_lt_of_mem hz1
       have hb2 := List.sizeOf_lt_of_mem hz2
       omega)
    | (have hb1 := sizeOf_snd_lt_of_mem hkv
       have hb2 := sizeOf_snd_lt_of_mem (alookup_mem halo)
       omega)
    | (have hb1 := List.sizeOf_lt_of_mem hx
       have hb2 := List.sizeOf_lt_of_mem hy
       omega)

/-- `AnyDict.eq`: build the effective required pairs (explicit non-Ellipsis
entries, extended under the catch-all by the Ellipsis item for every
candidate key not explicitly listed) and compare `other.get(k, None) == v`
for each. -/
def anyDictEq (he : Bool) (req : List (PyKey × Py)) (other : Py) : Bool :=
  match other with
  | .dict d =>
    (dictEffective he req d).attach.all
      (fun ⟨kv, hkv⟩ => pyEq ((alookup kv.1 d).getD Py.none) kv.2)
  | _ => false
termination_by 2 * (sizeOf req + sizeOf other)
decreasing_by
  all_goals simp_wf
  all_goals
    (have hb1 := sizeOf_mem_dictEffective hkv
     have hb2 := sizeOf_alookup_getD (k := kv.1) (d := d1)
     omega)

/-- `AnyList.eq`, boolean result: the required items, extended under the
trailing-Ellipsis flag by repeating the last item up to the candidate
length, are zipped against the candidate.  (The in-place growth of
`self.required_items` performed by the same code is `anyListRequiredAfter`.) -/
def anyListEqB (he : Bool) (req : List Py) (other : Py) : Bool :=
  match other with
  | .list xs =>
    ((listEffective he req xs).zip xs).attach.all (fun ⟨p, hp⟩ => pyEq p.1 p.2)
  | _ => false
termination_by 2 * (sizeOf req + sizeOf other)
decreasing_by
  all_goals simp_wf
  all_goals
    (obtain ⟨hz1, hz2⟩ := List.of_mem_zip hp
     have hb1 := sizeOf_mem_listEffective hz1
     have hb2 := List.sizeOf_lt_of_mem hz2
     omega)

/-- `AnySet.eq`: every required item must occur in the candidate list;
CPython's `x in other` compares the candidate items on the left. -/
def anySetEq (req : List Py) (other : Py) : Bool :=
  match other with
  | .list xs => req.attach.all (fun ⟨x, hx⟩ => xs.attach.any (fun ⟨y, hy⟩ => pyEq y x))
  | _ => false
termination_by 2 * (sizeOf req + sizeOf other)
decreasing_by
  all_goals simp_wf
  all_goals
    (have hb1 := List.sizeOf_lt_of_mem hx
     have hb2 := List.sizeOf_lt_of_mem hy
     omega)

/-- `AnyUnion.eq`: some alternative matches (alternatives on the left). -/
def anyUnionEq (objs : List Py) (other : Py) : Bool :=
  objs.attach.any (fun ⟨o, ho⟩ => pyEq o other)
termination_by 2 * (sizeOf objs + sizeOf other)
decreasing_by
  all_goals simp_wf
  all_goals
    (have hb1 := List.sizeOf_lt_of_mem ho
     omega)

end

/-! ### Attach elimination and unfolding lemmas

`pyEq` recurses through `List.attach` so that the termination argument can
see list membership; the lemmas below restate each branch without `attach`,
giving the equations everything later in the file works with. -/

theorem attach_all_eq {α : Type} (l : List α) (g : {x // x ∈ l} → Bool) (f : α → Bool)
    (h : ∀ x (hx : x ∈ l), g ⟨x, hx⟩ = f x) : l.attach.all g = l.all f := by
  rw [Bool.eq_iff_iff]
  simp only [List.all_eq_true, List.mem_attach, true_implies]
  constructor
  · intro H x hx
    rw [← h x hx]
    exact H ⟨x, hx⟩
  · intro H x
    cases x with
    | mk v hv =>
      rw [h v hv]
      exact H v hv

theorem attach_any_eq {α : Type} (l : List α) (g : {x // x ∈ l} → Bool) (f : α → Bool)
    (h : ∀ x (hx : x ∈ l), g ⟨x, hx⟩ = f x) : l.attach.any g = l.any f := by
  rw [Bool.eq_iff_iff]
  simp only [List.any_eq_true, List.mem_attach, true_and]
  constructor
  · intro ⟨x, hgx⟩
    exact ⟨x.val, x.property, by rw [← h x.val x.property]; exact hgx⟩
  · intro ⟨x, hx, hfx⟩
    exact ⟨⟨x, hx⟩, by rw [h x hx]; exact hfx⟩

theorem pyEq_anyDict (he : Bool) (req : List (PyKey × Py)) (b : Py) :
    pyEq (.anyDict he req) b = anyDictEq he req b := by rw [pyEq]

theorem pyEq_anyList (he : Bool) (req : List Py) (b : Py) :
    pyEq (.anyList he req) b = anyListEqB he req b := by rw [pyEq]

theorem pyEq_anySet (req : List Py) (b : Py) :
    pyEq (.anySet req) b = anySetEq req b := by rw [pyEq]

theorem pyEq_anyType (ty b : Py) : pyEq (.anyType ty) b = anyTypeEq ty b := by rw [pyEq]

theorem pyEq_anyUnion (objs : List Py) (b : Py) :
    pyEq (.anyUnion objs) b = anyUnionEq objs b := by rw [pyEq]

theorem pyEq_anything (b : Py) : pyEq .anything b = true := by rw [pyEq]

/-- Whether a value is an `AnyBase` schema-node instance (so that its
`__eq__`/`__req__` run `eq` instead of a plain comparison). -/
def isAnyBase : Py → Bool
  | .anyDict _ _ | .anyList _ _ | .anySet _ | .anyType _ | .anyUnion _ | .anything => true
  | _ => false

theorem pyEq_of_not_anyBase {a : Py} (h : isAnyBase a = false) (b : Py) :
    pyEq a b = pyEqRefl a b := by
  cases a <;> try simp [isAnyBase] at h
  all_goals rw [pyEq]

theorem pyEqRefl_anyDict (a : Py) (he : Bool) (req : List (PyKey × Py)) :
    pyEqRefl a (.anyDict he req) = anyDictEq he req a := by rw [pyEqRefl]

theorem pyEqRefl_anyList (a : Py) (he : Bool) (req : List Py) :
    pyEqRefl a (.anyList he req) = anyListEqB he req a := by rw [pyEqRefl]

theorem pyEqRefl_anySet (a : Py) (req : List Py) :
    pyEqRefl a (.anySet req) = anySetEq req a := by rw [pyEqRefl]

theorem pyEqRefl_anyType (a ty : Py) : pyEqRefl a (.anyType ty) = anyTypeEq ty a := by
  rw [pyEqRefl]

theorem pyEqRefl_anyUnion (a : Py) (objs : List Py) :
    pyEqRefl a (.anyUnion objs) = anyUnionEq objs a := by rw [pyEqRefl]

theorem pyEqRefl_anything (a : Py) : pyEqRefl a .anything = true := by rw [pyEqRefl]

theorem anyDictEq_dict (he : Bool) (req d : List (PyKey × Py)) :
    anyDictEq he req (.dict d) =
      (dictEffective he req d).all (fun kv => pyEq ((alookup kv.1 d).getD Py.none) kv.2) := by
  rw [anyDictEq]
  exact attach_all_eq _ _ _ (fun x hx => rfl)

theorem anyListEqB_list (he : Bool) (req xs : List Py) :
    anyListEqB he req (.list xs) =
      ((listEffective he req xs).zip xs).all (fun p => pyEq p.1 p.2) := by
  rw [anyListEqB]
  exact attach_all_eq _ _ _ (fun x hx => rfl)

theorem anySetEq_list (req xs : List Py) :
    anySetEq req (.list xs) = req.all (fun x => xs.any (fun y => pyEq y x)) := by
  rw [anySetEq]
  refine attach_all_eq _ _ _ (fun x hx => ?_)
  exact attach_any_eq _ _ _ (fun y hy => rfl)

theorem anyUnionEq_eq (objs : List Py) (b : Py) :
    anyUnionEq objs b = objs.any (fun o => pyEq o b) := by
  rw [anyUnionEq]
  exact attach_any_eq _ _ _ (fun x hx => rfl)

theorem pyEqRefl_list_list (xs ys : List Py) :
    pyEqRefl (.list xs) (.list ys) =
      (xs.length == ys.length && (xs.zip ys).all (fun p => pyEq p.1 p.2)) := by
  rw [pyEqRefl]
  congr 1
  exact attach_all_eq _ _ _ (fun x hx => rfl)

theorem pyEqRefl_dict_dict (d1 d2 : List (PyKey × Py)) :
    pyEqRefl (.dict d1) (.dict d2) =
      (d1.length == d2.length && d1.all (fun kv =>
        match alookup kv.1 d2 with
        | some w => pyEq kv.2 w
        | Option.none => false)) := by
  rw [pyEqRefl]
  congr 1
  refine attach_all_eq _ _ _ (fun x hx => ?_)
  show (match halo : alookup x.1 d2 with
        | some w => pyEq x.2 w
        | Option.none => false) = _
  split <;> rename_i halo <;> simp [halo]

theorem pyEqRefl_set_set (xs ys : List Py) :
    pyEqRefl (.set xs) (.set ys) =
      (xs.all (fun x => ys.any (fun y => pyEq x y)) &&
        ys.all (fun y => xs.any (fun x => pyEq y x))) := by
  rw [pyEqRefl]
  congr 1
  · refine attach_all_eq _ _ _ (fun x hx => ?_)
    exact attach_any_eq _ _ _ (fun y hy => rfl)
  · refine attach_all_eq _ _ _ (fun y hy => ?_)
    exact attach_any_eq _ _ _ (fun x hx => rfl)

/-! ### Validator facade, construction-time checks, and the builder `Any` -/

/-- `JsonValidator.validate`: `return self.schema == json_obj` (debug off). -/
def validate (schema jsonObj : Py) : Bool := pyEq schema jsonObj

/-- Python exceptions that `main.py` can raise: the `assert` statements in
`AnyList.__init__`, the `IndexError` of `items[-1]` on an empty list, and
the `TypeError` of `isinstance(x, t)` when `t` is not a type (also the class
of the debug-mode failure `raise TypeError(...)`). -/
inductive PyErr where
  | assertionError
  | indexError
  | typeError
  deriving DecidableEq, Repr

/-- `AnyType.eq` including the exception behaviour: when `self.type_` is not
a type object, `isinstance(other, self.type_)` raises `TypeError`.  (The
`bool`/`int` carve-out fires first and needs no `isinstance` on `type_`.) -/
def anyTypeEqE (ty other : Py) : Except PyErr Bool :=
  match ty, other with
  | .typeTag .int, .bool _ => .ok false
  | .typeTag t, o => .ok (isinst o t)
  | _, _ => .error .typeError

/-- `AnyList.__init__`: assert the Ellipsis sentinel is not among the
non-final items and that the items are not just the sentinel, then read
`items[-1]` (an `IndexError` on `[]`) to set `has_ellipsis` and strip the
sentinel.  Every check uses Python `==`, hence dispatches into schema-node
`eq` methods when items are schema nodes. -/
def anyListInit (items : List Py) : Except PyErr Py :=
  if (items.dropLast).any (fun it => pyEq it Py.ellipsis) then
    .error .assertionError
  else if pyEq (.list items) (.list [Py.ellipsis]) then
    .error .assertionError
  else
    match items.getLast? with
    | Option.none => .error .indexError
    | some last =>
      let he := pyEq last Py.ellipsis
      .ok (.anyList he (if he then items.dropLast else items))

/-- `AnyDict.__init__`: `has_ellipsis = ... in schema` (a plain key-membership
test) and the schema dict is stored as given. -/
def anyDictInit (schema : List (PyKey × Py)) : Py :=
  .anyDict ((alookup PyKey.kEll schema).isSome) schema

/-- The membership test `obj in t.get_args(JsonValueType)` of the builder:
CPython compares `tag == obj` for each of the six classes, trying the tag's
(identity-based) `__eq__` first and then the reflected `obj.__eq__(tag)` —
exactly `pyEq (typeTag t) obj`.  A schema node whose `eq` accepts a type
object therefore passes this test. -/
def inTags (obj : Py) : Bool :=
  [PyType.int, .float, .bool, .str, .dict, .list].any
    (fun t => pyEq (.typeTag t) obj)

/-- The single-argument branch of the builder `Any`. -/
def any1 (obj : Py) : Except PyErr Py :=
  if inTags obj then .ok (.anyType obj)
  else
    match obj with
    | .dict d => .ok (anyDictInit d)
    | .list items => anyListInit items
    | .set items => .ok (.anySet items)
    | _ => .ok obj

/-- The builder `Any(*objs)`: no argument gives `Anything`, one argument is
normalised by category, several arguments build `AnyUnion(Any(obj) for obj
in objs)` (errors of the generator propagate left to right). -/
def anyB (objs : List Py) : Except PyErr Py :=
  match objs with
  | [] => .ok .anything
  | [obj] => any1 obj
  | _ => do
    let alts ← objs.mapM any1
    .ok (.anyUnion alts)

/-- The value of `self.required_items` after `AnyList.eq(other)` returns:
`required_items = self.required_items` aliases the stored list, so the
subsequent `required_items += [item_to_repeat] * (len(other) -
len(self.required_items))` grows the node's own attribute in place whenever
the flag is set and the candidate is a longer list. -/
def anyListRequiredAfter (he : Bool) (req : List Py) (other : Py) : List Py :=
  match other with
  | .list xs =>
    if he then
      req ++ List.replicate (xs.length - req.length) ((req.getLast?).getD Py.none)
    else req
  | _ => req

/-! ### Plain-value dispatch equations (tagged for evaluation by `simp`) -/

@[simp] theorem pyEq_noneL (b : Py) : pyEq .none b = pyEqRefl .none b := by rw [pyEq]
@[simp] theorem pyEq_boolL (x : Bool) (b : Py) :
    pyEq (.bool x) b = pyEqRefl (.bool x) b := by rw [pyEq]
@[simp] theorem pyEq_intL (n : Int) (b : Py) :
    pyEq (.int n) b = pyEqRefl (.int n) b := by rw [pyEq]
@[simp] theorem pyEq_floatL (n : Int) (b : Py) :
    pyEq (.float n) b = pyEqRefl (.float n) b := by rw [pyEq]
@[simp] theorem pyEq_strL (s : String) (b : Py) :
    pyEq (.str s) b = pyEqRefl (.str s) b := by rw [pyEq]
@[simp] theorem pyEq_listL (xs : List Py) (b : Py) :
    pyEq (.list xs) b = pyEqRefl (.list xs) b := by rw [pyEq]
@[simp] theorem pyEq_dictL (d : List (PyKey × Py)) (b : Py) :
    pyEq (.dict d) b = pyEqRefl (.dict d) b := by rw [pyEq]
@[simp] theorem pyEq_setL (xs : List Py) (b : Py) :
    pyEq (.set xs) b = pyEqRefl (.set xs) b := by rw [pyEq]
@[simp] theorem pyEq_ellipsisL (b : Py) :
    pyEq .ellipsis b = pyEqRefl .ellipsis b := by rw [pyEq]
@[simp] theorem pyEq_typeTagL (t : PyType) (b : Py) :
    pyEq (.typeTag t) b = pyEqRefl (.typeTag t) b := by rw [pyEq]

attribute [simp] pyEq_anyDict pyEq_anyList pyEq_anySet pyEq_anyType pyEq_anyUnion
  pyEq_anything pyEqRefl_anyDict pyEqRefl_anyList pyEqRefl_anySet pyEqRefl_anyType
  pyEqRefl_anyUnion pyEqRefl_anything anyDictEq_dict anyListEqB_list anySetEq_list
  anyUnionEq_eq pyEqRefl_list_list pyEqRefl_dict_dict pyEqRefl_set_set

/-! ### The mutation-reachability relation `Grown`

`AnyList.eq` line `required_items += [item_to_repeat] * (len(other) -
len(self.required_items))` is executed on an alias of
`self.required_items`, so matching mutates `AnyList` nodes in place: the
stored items grow by copies of the (original) last item.  `Grown a b` says
that `b` is `a` with zero or more such extensions applied anywhere in the
tree; `anyListRequiredAfter` lands in `Grown` (proved below), and match
results are invariant under `Grown` (`pyEq_ext`), which is what makes repeated
validation deterministic despite the in-place mutation. -/

mutual

inductive Grown : Py → Py → Prop where
  | none : Grown .none .none
  | bool (x) : Grown (.bool x) (.bool x)
  | int (n) : Grown (.int n) (.int n)
  | float (n) : Grown (.float n) (.float n)
  | str (s) : Grown (.str s) (.str s)
  | ellipsis : Grown .ellipsis .ellipsis
  | typeTag (t) : Grown (.typeTag t) (.typeTag t)
  | list {xs ys} : GrownL xs ys → Grown (.list xs) (.list ys)
  | dict {d e} : GrownD d e → Grown (.dict d) (.dict e)
  | set {xs ys} : GrownL xs ys → Grown (.set xs) (.set ys)
  | anyDict {he d e} : GrownD d e → Grown (.anyDict he d) (.anyDict he e)
  | anyListC {req req2 l pad} : GrownL req req2 → req.getLast? = some l → GrownPad l pad →
      Grown (.anyList true req) (.anyList true (req2 ++ pad))
  | anyListP {he req req2} : GrownL req req2 → Grown (.anyList he req) (.anyList he req2)
  | anySet {xs ys} : GrownL xs ys → Grown (.anySet xs) (.anySet ys)
  | anyType {ty ty2} : Grown ty ty2 → Grown (.anyType ty) (.anyType ty2)
  | anyUnion {xs ys} : GrownL xs ys → Grown (.anyUnion xs) (.anyUnion ys)
  | anything : Grown .anything .anything

inductive GrownL : List Py → List Py → Prop where
  | nil : GrownL [] []
  | cons {x y xs ys} : Grown x y → GrownL xs ys → GrownL (x :: xs) (y :: ys)

inductive GrownD : List (PyKey × Py) → List (PyKey × Py) → Prop where
  | nil : GrownD [] []
  | cons (k) {v w d e} : Grown v w → GrownD d e → GrownD ((k, v) :: d) ((k, w) :: e)

inductive GrownPad : Py → List Py → Prop where
  | nil {l} : GrownPad l []
  | cons {l x xs} : Grown l x → GrownPad l xs → GrownPad l (x :: xs)

end

theorem grownL_of_forall {xs : List Py} (h : ∀ x ∈ xs, Grown x x) : GrownL xs xs := by
  induction xs with
  | nil => exact .nil
  | cons x xs ih =>
    exact .cons (h x (List.mem_cons_self x xs)) (ih (fun y hy => h y (List.mem_cons_of_mem x hy)))

theorem grownD_of_forall {d : List (PyKey × Py)} (h : ∀ kv ∈ d, Grown kv.2 kv.2) : GrownD d d := by
  induction d with
  | nil => exact .nil
  | cons kv d ih =>
    obtain ⟨k, v⟩ := kv
    exact .cons k (h (k, v) (List.mem_cons_self _ _)) (ih (fun y hy => h y (List.mem_cons_of_mem _ hy)))

/-- `Grown` is reflexive: a tree is trivially a mutation state of itself. -/
theorem Grown.refl : ∀ (a : Py), Grown a a := by
  have main : ∀ (n : Nat) (a : Py), sizeOf a ≤ n → Grown a a := by
    intro n
    induction n using Nat.strong_induction_on with
    | _ n ih =>
      intro a ha
      cases a with
      | none => exact .none
      | bool x => exact .bool x
      | int m => exact .int m
      | float m => exact .float m
      | str s => exact .str s
      | ellipsis => exact .ellipsis
      | typeTag t => exact .typeTag t
      | anything => exact .anything
      | list xs =>
        refine .list (grownL_of_forall (fun x hx => ?_))
        have := List.sizeOf_lt_of_mem hx
        have hs : sizeOf xs < sizeOf (Py.list xs) := by simp +arith
        exact ih (sizeOf x) (by omega) x (le_refl _)
      | set xs =>
        refine .set (grownL_of_forall (fun x hx => ?_))
        have := List.sizeOf_lt_of_mem hx
        have hs : sizeOf xs < sizeOf (Py.set xs) := by simp +arith
        exact ih (sizeOf x) (by omega) x (le_refl _)
      | anySet xs =>
        refine .anySet (grownL_of_forall (fun x hx => ?_))
        have := List.sizeOf_lt_of_mem hx
        have hs : sizeOf xs < sizeOf (Py.anySet xs) := by simp +arith
        exact ih (sizeOf x) (by omega) x (le_refl _)
      | anyUnion xs =>
        refine .anyUnion (grownL_of_forall (fun x hx => ?_))
        have := List.sizeOf_lt_of_mem hx
        have hs : sizeOf xs < sizeOf (Py.anyUnion xs) := by simp +arith
        exact ih (sizeOf x) (by omega) x (le_refl _)
      | anyList he xs =>
        refine .anyListP (grownL_of_forall (fun x hx => ?_))
        have := List.sizeOf_lt_of_mem hx
        have hs : sizeOf xs < sizeOf (Py.anyList he xs) := by simp +arith
        exact ih (sizeOf x) (by omega) x (le_refl _)
      | dict d =>
        refine .dict (grownD_of_forall (fun kv hkv => ?_))
        have := sizeOf_snd_lt_of_mem hkv
        have hs : sizeOf d < sizeOf (Py.dict d) := by simp +arith
        exact ih (sizeOf kv.2) (by omega) kv.2 (le_refl _)
      | anyDict he d =>
        refine .anyDict (grownD_of_forall (fun kv hkv => ?_))
        have := sizeOf_snd_lt_of_mem hkv
        have hs : sizeOf d < sizeOf (Py.anyDict he d) := by simp +arith
        exact ih (sizeOf kv.2) (by omega) kv.2 (le_refl _)
      | anyType ty =>
        refine .anyType ?_
        have hs : sizeOf ty < sizeOf (Py.anyType ty) := by simp +arith
        exact ih (sizeOf ty) (by omega) ty (le_refl _)
  exact fun a => main (sizeOf a) a (le_refl _)

theorem grownL_length_eq {xs ys : List Py} (h : GrownL xs ys) : xs.length = ys.length := by
  induction xs generalizing ys with
  | nil => cases h; rfl
  | cons x xs ih => cases h with | cons hx hxs => simp [ih hxs]

theorem grownD_length_eq {d e : List (PyKey × Py)} (h : GrownD d e) : d.length = e.length := by
  induction d generalizing e with
  | nil => cases h; rfl
  | cons kv d ih => cases h with | cons k hx hde => simp [ih hde]

theorem grownD_keys_eq {d e : List (PyKey × Py)} (h : GrownD d e) :
    d.map Prod.fst = e.map Prod.fst := by
  induction d generalizing e with
  | nil => cases h; rfl
  | cons kv d ih => cases h with | cons k hx hde => simp [ih hde]

theorem grownL_append {xs ys xs2 ys2 : List Py} (h : GrownL xs ys) (h2 : GrownL xs2 ys2) :
    GrownL (xs ++ xs2) (ys ++ ys2) := by
  induction xs generalizing ys with
  | nil => cases h; simpa using h2
  | cons x xs ih => cases h with | cons hx hxs => exact .cons hx (ih hxs)

theorem grownD_append {d e d2 e2 : List (PyKey × Py)} (h : GrownD d e) (h2 : GrownD d2 e2) :
    GrownD (d ++ d2) (e ++ e2) := by
  induction d generalizing e with
  | nil => cases h; simpa using h2
  | cons kv d ih => cases h with | cons k hx hde => exact .cons k hx (ih hde)

theorem grownD_filter {d e : List (PyKey × Py)} (h : GrownD d e) (f : PyKey → Bool) :
    GrownD (d.filter (fun kv => f kv.1)) (e.filter (fun kv => f kv.1)) := by
  induction d generalizing e with
  | nil => cases h; exact .nil
  | cons kv d ih =>
    cases h with
    | cons k hx hde =>
      by_cases hf : f k
      · simpa [List.filter_cons, hf] using GrownD.cons k hx (ih hde)
      · simpa [List.filter_cons, hf] using ih hde

theorem grownD_alookup {d e : List (PyKey × Py)} (h : GrownD d e) (k : PyKey) :
    (alookup k d = Option.none ∧ alookup k e = Option.none) ∨
      (∃ v w, alookup k d = some v ∧ alookup k e = some w ∧ Grown v w) := by
  induction d generalizing e with
  | nil => cases h; exact Or.inl ⟨rfl, rfl⟩
  | cons kv d ih =>
    cases h with
    | cons k2 hx hde =>
      by_cases hk : k2 = k
      · subst hk
        exact Or.inr ⟨_, _, by simp [alookup], by simp [alookup], hx⟩
      · simpa [alookup, hk] using ih hde

theorem grownD_alookup_getD {d e : List (PyKey × Py)} (h : GrownD d e) (k : PyKey) :
    Grown ((alookup k d).getD Py.none) ((alookup k e).getD Py.none) := by
  rcases grownD_alookup h k with ⟨h1, h2⟩ | ⟨v, w, h1, h2, hvw⟩
  · rw [h1, h2]; exact .none
  · rw [h1, h2]; exact hvw

theorem grownL_getLast? {xs ys : List Py} (h : GrownL xs ys) :
    (xs.getLast? = Option.none ∧ ys.getLast? = Option.none) ∨
      (∃ v w, xs.getLast? = some v ∧ ys.getLast? = some w ∧ Grown v w) := by
  induction xs generalizing ys with
  | nil => cases h; exact Or.inl ⟨rfl, rfl⟩
  | cons x xs ih =>
    cases h with
    | @cons _ y _ ys2 hx hxs =>
      cases xs with
      | nil => cases hxs; exact Or.inr ⟨x, y, rfl, rfl, hx⟩
      | cons x2 xs2 =>
        cases hxs with
        | @cons _ y2 _ ys3 hx2 hxs2 =>
          rcases ih (GrownL.cons hx2 hxs2) with ⟨h1, h2⟩ | ⟨v, w, h1, h2, hvw⟩
          · simp at h1
          · exact Or.inr ⟨v, w, by simpa [List.getLast?_cons_cons] using h1,
              by simpa [List.getLast?_cons_cons] using h2, hvw⟩

theorem grownL_getLastD {xs ys : List Py} (h : GrownL xs ys) :
    Grown ((xs.getLast?).getD Py.none) ((ys.getLast?).getD Py.none) := by
  rcases grownL_getLast? h with ⟨h1, h2⟩ | ⟨v, w, h1, h2, hvw⟩
  · rw [h1, h2]; exact .none
  · rw [h1, h2]; exact hvw

theorem grownPad_mem {l : Py} {pad : List Py} (h : GrownPad l pad) {x : Py} (hx : x ∈ pad) :
    Grown l x := by
  induction pad with
  | nil => simp at hx
  | cons p pad ih =>
    cases h with
    | cons hl hp =>
      rcases List.mem_cons.mp hx with h1 | h1
      · subst h1; exact hl
      · exact ih hp h1

theorem grownL_getD {xs ys : List Py} (h : GrownL xs ys) {i : Nat} (hi : i < xs.length) :
    Grown (xs.getD i Py.none) (ys.getD i Py.none) := by
  induction xs generalizing ys i with
  | nil => simp at hi
  | cons x xs ih =>
    cases h with
    | cons hx hxs =>
      cases i with
      | zero => simpa using hx
      | succ j =>
        simp only [List.getD_cons_succ]
        exact ih hxs (by simpa using hi)

/-! ### Index-wise views of the effective sequences -/

theorem getD_replicate {a d : Py} {k j : Nat} :
    (List.replicate k a).getD j d = if j < k then a else d := by
  induction k generalizing j with
  | zero => simp
  | succ k ih =>
    cases j with
    | zero => simp [List.replicate_succ]
    | succ j => simpa [List.replicate_succ, Nat.succ_lt_succ_iff] using ih

theorem sizeOf_getD_lt {xs : List Py} {i : Nat} (hi : i < xs.length) :
    sizeOf (xs.getD i Py.none) < sizeOf xs := by
  have hmem : xs.getD i Py.none ∈ xs := by
    rw [List.getD_eq_getElem _ _ hi]
    exact List.getElem_mem hi
  exact List.sizeOf_lt_of_mem hmem

theorem listEffective_true_length (req xs : List Py) :
    (listEffective true req xs).length = max req.length xs.length := by
  simp [listEffective]
  omega

theorem listEffective_true_getD {req xs : List Py} {i : Nat} (hi : i < xs.length) :
    (listEffective true req xs).getD i Py.none =
      if i < req.length then req.getD i Py.none else (req.getLast?).getD Py.none := by
  unfold listEffective
  simp only [if_true]
  by_cases h : i < req.length
  · rw [if_pos h, List.getD_append _ _ _ _ h]
  · rw [if_neg h, List.getD_append_right _ _ _ _ (by omega), getD_replicate,
      if_pos (by omega)]

theorem listEffective_false_getD (req xs : List Py) (i : Nat) :
    (listEffective false req xs).getD i Py.none = req.getD i Py.none := by
  simp [listEffective]

/-- Entry-wise `Grown` for the effective sequences of two related `AnyList`
nodes related by plain congruence (no new pad). -/
theorem listEffective_entries_grownP {he : Bool} {req req2 xs ys : List Py}
    (hr : GrownL req req2) (hlen : xs.length = ys.length) {i : Nat} (hi : i < xs.length) :
    Grown ((listEffective he req xs).getD i Py.none)
      ((listEffective he req2 ys).getD i Py.none) := by
  cases he with
  | false =>
    have hlr := grownL_length_eq hr
    rw [listEffective_false_getD, listEffective_false_getD]
    by_cases h : i < req.length
    · exact grownL_getD hr h
    · rw [List.getD_eq_default _ _ (by omega), List.getD_eq_default _ _ (by omega)]
      exact .none
  | true =>
    rw [listEffective_true_getD hi, listEffective_true_getD (by omega)]
    have hlr := grownL_length_eq hr
    by_cases h : i < req.length
    · rw [if_pos h, if_pos (by omega)]
      exact grownL_getD hr h
    · rw [if_neg h, if_neg (by omega)]
      exact grownL_getLastD hr

/-- Entry-wise `Grown` for the effective sequences of an `AnyList` node and
one of its Ellipsis-extension states: every position still matches against a
`Grown`-descendant of the original entry at that position. -/
theorem listEffective_entries_grownC {req req2 pad : List Py} {l : Py} {xs ys : List Py}
    (hr : GrownL req req2) (hl : req.getLast? = some l) (hp : GrownPad l pad)
    (hlen : xs.length = ys.length) {i : Nat} (hi : i < xs.length) :
    Grown ((listEffective true req xs).getD i Py.none)
      ((listEffective true (req2 ++ pad) ys).getD i Py.none) := by
  have hlr := grownL_length_eq hr
  rw [listEffective_true_getD hi, listEffective_true_getD (by omega)]
  by_cases h : i < req.length
  · rw [if_pos h, if_pos (by simp; omega)]
    rw [List.getD_append _ _ _ _ (by omega)]
    exact grownL_getD hr h
  · rw [if_neg h, hl]
    simp only [Option.getD_some]
    by_cases h2 : i < req2.length + pad.length
    · rw [if_pos (by simp; omega)]
      rw [List.getD_append_right _ _ _ _ (by omega)]
      have hppos : i - req2.length < pad.length := by omega
      have hmem : pad.getD (i - req2.length) Py.none ∈ pad := by
        rw [List.getD_eq_getElem _ _ hppos]
        exact List.getElem_mem hppos
      exact grownPad_mem hp hmem
    · rw [if_neg (by simp; omega)]
      cases hpad : pad.getLast? with
      | none =>
        have hpe : pad = [] := by
          cases pad with
          | nil => rfl
          | cons p ps => rw [List.getLast?_eq_getLast _ (by simp)] at hpad; simp at hpad
        subst hpe
        simp only [List.append_nil]
        rcases grownL_getLast? hr with ⟨h1, _⟩ | ⟨v, w, h1, h2, hvw⟩
        · rw [h1] at hl; cases hl
        · rw [h1] at hl
          cases hl
          rw [h2]
          simpa using hvw
      | some p =>
        have hpmem : p ∈ pad := mem_getLast? hpad
        rw [List.getLast?_append_of_ne_nil, hpad]
        · simpa using grownPad_mem hp hpmem
        · intro hnil
          subst hnil
          simp at hpad

theorem range_all_congr {m : Nat} {f g : Nat → Bool} (h : ∀ i < m, f i = g i) :
    (List.range m).all f = (List.range m).all g := by
  rw [Bool.eq_iff_iff]
  simp only [List.all_eq_true, List.mem_range]
  constructor
  · intro H i hi; rw [← h i hi]; exact H i hi
  · intro H i hi; rw [h i hi]; exact H i hi

/-- Comparison of zipped pairs, re-expressed position by position: exactly
`min` of the two lengths positions are compared. -/
theorem zip_all_eq_range_all (f : Py → Py → Bool) (xs ys : List Py) :
    ((xs.zip ys).all fun p => f p.1 p.2) =
      ((List.range (min xs.length ys.length)).all fun i =>
        f (xs.getD i Py.none) (ys.getD i Py.none)) := by
  induction xs generalizing ys with
  | nil => simp
  | cons x xs ih =>
    cases ys with
    | nil => simp
    | cons y ys =>
      have : min (x :: xs).length (y :: ys).length = min xs.length ys.length + 1 := by
        simp [Nat.succ_min_succ]
      rw [this, List.range_succ_eq_map]
      simp only [List.zip_cons_cons, List.all_cons, List.getD_cons_zero, List.all_map,
        Function.comp, List.getD_cons_succ]
      rw [ih]
      have h2 : ∀ i < min xs.length ys.length,
          (fun i => f (xs.getD i Py.none) (ys.getD i Py.none)) i =
            ((fun i => f ((x :: xs).getD i Py.none) ((y :: ys).getD i Py.none)) ∘ Nat.succ) i := by
        intro i hi
        simp [Function.comp]
      rw [range_all_congr h2]

theorem grownD_map_const {ks : List PyKey} {rep rep2 : Py} (h : Grown rep rep2) :
    GrownD (ks.map (fun k => (k, rep))) (ks.map (fun k => (k, rep2))) := by
  induction ks with
  | nil => exact .nil
  | cons k ks ih => exact .cons k h ih

/-- The effective pair sequences of two `Grown`-related `AnyDict` nodes
against two `Grown`-related candidate dicts are pairwise related (same keys,
`Grown` values). -/
theorem dictEffective_grown {he : Bool} {req req2 d e : List (PyKey × Py)}
    (hr : GrownD req req2) (hde : GrownD d e) :
    GrownD (dictEffective he req d) (dictEffective he req2 e) := by
  unfold dictEffective
  have hfil := grownD_filter hr (fun k => decide (k ≠ PyKey.kEll))
  have hkeys := grownD_keys_eq hfil
  have hdkeys := grownD_keys_eq hde
  have hrep := grownD_alookup_getD hr PyKey.kEll
  cases he with
  | false => simpa using hfil
  | true =>
    simp only [if_true]
    refine grownD_append hfil ?_
    rw [← hdkeys, ← hkeys]
    exact grownD_map_const hrep

/-! ### Invariance of match results under `Grown`

The following `..._aux` lemmas each handle one `eq` method body, taking the
strong-induction hypothesis `IH` as a parameter; `pyEq_grown` below ties the
knot. -/

theorem getD_mem {xs : List Py} {i : Nat} (hi : i < xs.length) : xs.getD i Py.none ∈ xs := by
  rw [List.getD_eq_getElem _ _ hi]
  exact List.getElem_mem hi

/-- `all(a == b for ...)` over the pairs of an `AnyDict.eq` run. -/
theorem dictAll_grown_aux {n : Nat}
    (IH : ∀ x y x2 y2 : Py,
      sizeOf x + sizeOf y < n → Grown x x2 → Grown y y2 → pyEq x2 y2 = pyEq x y)
    {d e : List (PyKey × Py)} (hde : GrownD d e) :
    ∀ {eff eff2 : List (PyKey × Py)}, GrownD eff eff2 →
      (∀ kv ∈ eff, sizeOf kv.2 + sizeOf d < n) →
      (eff2.all (fun kv => pyEq ((alookup kv.1 e).getD Py.none) kv.2) =
        eff.all (fun kv => pyEq ((alookup kv.1 d).getD Py.none) kv.2)) := by
  intro eff eff2 hee hb
  induction eff generalizing eff2 with
  | nil => cases hee; rfl
  | cons kv eff ihe =>
    cases hee with
    | @cons k v w _ _ hx hee2 =>
      simp only [List.all_cons]
      have hhead : pyEq ((alookup k e).getD Py.none) w =
          pyEq ((alookup k d).getD Py.none) v := by
        refine IH _ _ _ _ ?_ (grownD_alookup_getD hde k) hx
        have h1 : sizeOf ((alookup k d).getD Py.none) < 1 + sizeOf d := sizeOf_alookup_getD
        have h2 := hb (k, v) (List.mem_cons_self _ _)
        simp at h2
        omega
      rw [hhead, ihe hee2 (fun kv2 hkv2 => hb kv2 (List.mem_cons_of_mem _ hkv2))]

/-- `x in other` of `AnySet.eq` (candidate items compared on the left). -/
theorem setAnyCore_grown_aux {n : Nat}
    (IH : ∀ x y x2 y2 : Py,
      sizeOf x + sizeOf y < n → Grown x x2 → Grown y y2 → pyEq x2 y2 = pyEq x y)
    {x x2 : Py} (hx : Grown x x2) :
    ∀ {xs ys : List Py}, GrownL xs ys → (∀ y ∈ xs, sizeOf y + sizeOf x < n) →
      (ys.any fun y => pyEq y x2) = (xs.any fun y => pyEq y x) := by
  intro xs ys hxy hb
  induction xs generalizing ys with
  | nil => cases hxy; rfl
  | cons y xs ihx =>
    cases hxy with
    | cons hy hxy2 =>
      simp only [List.any_cons]
      rw [IH _ _ _ _ (hb y (List.mem_cons_self _ _)) hy hx,
        ihx hxy2 (fun y2 hy2 => hb y2 (List.mem_cons_of_mem _ hy2))]

/-- Membership tests of plain `set == set` (needle compared on the left). -/
theorem setAnyCoreL_grown_aux {n : Nat}
    (IH : ∀ x y x2 y2 : Py,
      sizeOf x + sizeOf y < n → Grown x x2 → Grown y y2 → pyEq x2 y2 = pyEq x y)
    {x x2 : Py} (hx : Grown x x2) :
    ∀ {xs ys : List Py}, GrownL xs ys → (∀ y ∈ xs, sizeOf x + sizeOf y < n) →
      (ys.any fun y => pyEq x2 y) = (xs.any fun y => pyEq x y) := by
  intro xs ys hxy hb
  induction xs generalizing ys with
  | nil => cases hxy; rfl
  | cons y xs ihx =>
    cases hxy with
    | cons hy hxy2 =>
      simp only [List.any_cons]
      rw [IH _ _ _ _ (hb y (List.mem_cons_self _ _)) hx hy,
        ihx hxy2 (fun y2 hy2 => hb y2 (List.mem_cons_of_mem _ hy2))]

theorem setAll_grown_aux {n : Nat}
    (IH : ∀ x y x2 y2 : Py,
      sizeOf x + sizeOf y < n → Grown x x2 → Grown y y2 → pyEq x2 y2 = pyEq x y)
    {xs ys : List Py} (hcand : GrownL xs ys) :
    ∀ {req req2 : List Py}, GrownL req req2 →
      (∀ x ∈ req, ∀ y ∈ xs, sizeOf y + sizeOf x < n) →
      (req2.all fun x => ys.any fun y => pyEq y x) =
        (req.all fun x => xs.any fun y => pyEq y x) := by
  intro req req2 hr hb
  induction req generalizing req2 with
  | nil => cases hr; rfl
  | cons x req ihr =>
    cases hr with
    | cons hx hr2 =>
      simp only [List.all_cons]
      rw [setAnyCore_grown_aux IH hx hcand (fun y hy => hb x (List.mem_cons_self _ _) y hy),
        ihr hr2 (fun x2 hx2 y hy => hb x2 (List.mem_cons_of_mem _ hx2) y hy)]

/-- `any(obj == other for ...)` of `AnyUnion.eq`. -/
theorem unionAny_grown_aux {n : Nat}
    (IH : ∀ x y x2 y2 : Py,
      sizeOf x + sizeOf y < n → Grown x x2 → Grown y y2 → pyEq x2 y2 = pyEq x y)
    {b b2 : Py} (hb : Grown b b2) :
    ∀ {objs objs2 : List Py}, GrownL objs objs2 →
      (∀ o ∈ objs, sizeOf o + sizeOf b < n) →
      (objs2.any fun o => pyEq o b2) = (objs.any fun o => pyEq o b) := by
  intro objs objs2 ho hbd
  induction objs generalizing objs2 with
  | nil => cases ho; rfl
  | cons o objs iho =>
    cases ho with
    | cons ho1 ho2 =>
      simp only [List.any_cons]
      rw [IH _ _ _ _ (hbd o (List.mem_cons_self _ _)) ho1 hb,
        iho ho2 (fun o2 ho3 => hbd o2 (List.mem_cons_of_mem _ ho3))]

/-- Value comparisons of plain `dict == dict`. -/
theorem dictPlain_grown_aux {n : Nat}
    (IH : ∀ x y x2 y2 : Py,
      sizeOf x + sizeOf y < n → Grown x x2 → Grown y y2 → pyEq x2 y2 = pyEq x y)
    {d2 e2 : List (PyKey × Py)} (hde2 : GrownD d2 e2) :
    ∀ {d1 e1 : List (PyKey × Py)}, GrownD d1 e1 →
      (∀ kv ∈ d1, sizeOf kv.2 + sizeOf d2 < n) →
      (e1.all (fun kv =>
          match alookup kv.1 e2 with
          | some w => pyEq kv.2 w
          | Option.none => false) =
        d1.all (fun kv =>
          match alookup kv.1 d2 with
          | some w => pyEq kv.2 w
          | Option.none => false)) := by
  intro d1 e1 hd1 hb
  induction d1 generalizing e1 with
  | nil => cases hd1; rfl
  | cons kv d1 ihd =>
    cases hd1 with
    | @cons k v w _ _ hx hd2 =>
      simp only [List.all_cons]
      have hhead : (match alookup k e2 with
          | some w2 => pyEq w w2
          | Option.none => false) =
          (match alookup k d2 with
          | some w2 => pyEq v w2
          | Option.none => false) := by
        rcases grownD_alookup hde2 k with ⟨h1, h2⟩ | ⟨v2, w2, h1, h2, hvw⟩
        · rw [h1, h2]
        · rw [h1, h2]
          refine IH _ _ _ _ ?_ hx hvw
          have h3 := sizeOf_snd_lt_of_mem (alookup_mem h1)
          have h4 := hb (k, v) (List.mem_cons_self _ _)
          simp at h4
          omega
      rw [hhead, ihd hd2 (fun kv2 hkv2 => hb kv2 (List.mem_cons_of_mem _ hkv2))]

theorem anyDictEq_not_dict {he : Bool} {req : List (PyKey × Py)} {other : Py}
    (h : ∀ d, other ≠ .dict d) : anyDictEq he req other = false := by
  cases other <;> first | exact absurd rfl (h _) | simp [anyDictEq]

theorem anyListEqB_not_list {he : Bool} {req : List Py} {other : Py}
    (h : ∀ xs, other ≠ .list xs) : anyListEqB he req other = false := by
  cases other <;> first | exact absurd rfl (h _) | simp [anyListEqB]

theorem anySetEq_not_list {req : List Py} {other : Py}
    (h : ∀ xs, other ≠ .list xs) : anySetEq req other = false := by
  cases other <;> first | exact absurd rfl (h _) | simp [anySetEq]

theorem anyTypeEq_grown {ty ty2 b b2 : Py} (hty : Grown ty ty2) (hb : Grown b b2) :
    anyTypeEq ty2 b2 = anyTypeEq ty b := by
  cases hty <;> first
    | (cases hb <;> rfl)
    | (rename_i t
       cases hb <;> try rfl
       all_goals (cases t <;> rfl))

theorem anyDictEq_grown_aux {n : Nat}
    (IH : ∀ x y x2 y2 : Py,
      sizeOf x + sizeOf y < n → Grown x x2 → Grown y y2 → pyEq x2 y2 = pyEq x y)
    {he : Bool} {req req2 : List (PyKey × Py)} {other other2 : Py}
    (hr : GrownD req req2) (ho : Grown other other2)
    (hsz : sizeOf req + sizeOf other ≤ n) :
    anyDictEq he req2 other2 = anyDictEq he req other := by
  cases ho
  case dict d e hde =>
    rw [anyDictEq_dict, anyDictEq_dict]
    refine dictAll_grown_aux IH hde (dictEffective_grown hr hde) (fun kv hkv => ?_)
    have h1 := sizeOf_mem_dictEffective hkv
    have h2 : sizeOf d < sizeOf (Py.dict d) := by simp +arith
    omega
  all_goals rw [anyDictEq_not_dict (by simp), anyDictEq_not_dict (by simp)]

theorem anyListEqB_grownC_aux {n : Nat}
    (IH : ∀ x y x2 y2 : Py,
      sizeOf x + sizeOf y < n → Grown x x2 → Grown y y2 → pyEq x2 y2 = pyEq x y)
    {req req2 pad : List Py} {l : Py} {other other2 : Py}
    (hr : GrownL req req2) (hl : req.getLast? = some l) (hp : GrownPad l pad)
    (ho : Grown other other2) (hsz : sizeOf req + sizeOf other ≤ n) :
    anyListEqB true (req2 ++ pad) other2 = anyListEqB true req other := by
  cases ho
  case list xs ys hxy =>
    rw [anyListEqB_list, anyListEqB_list, zip_all_eq_range_all, zip_all_eq_range_all]
    have hlen := grownL_length_eq hxy
    have hm1 : min (listEffective true req xs).length xs.length = xs.length := by
      rw [listEffective_true_length]; omega
    have hm2 : min (listEffective true (req2 ++ pad) ys).length ys.length = ys.length := by
      rw [listEffective_true_length]; omega
    rw [hm1, hm2, ← hlen]
    refine range_all_congr (fun i hi => ?_)
    refine IH _ _ _ _ ?_ (listEffective_entries_grownC hr hl hp hlen hi) (grownL_getD hxy hi)
    have he1 : sizeOf ((listEffective true req xs).getD i Py.none) < 1 + sizeOf req := by
      refine sizeOf_mem_listEffective (getD_mem ?_)
      rw [listEffective_true_length]; omega
    have he2 : sizeOf (xs.getD i Py.none) < sizeOf xs := sizeOf_getD_lt hi
    have hx : sizeOf xs < sizeOf (Py.list xs) := by simp +arith
    omega
  all_goals rw [anyListEqB_not_list (by simp), anyListEqB_not_list (by simp)]

theorem anyListEqB_grownP_aux {n : Nat}
    (IH : ∀ x y x2 y2 : Py,
      sizeOf x + sizeOf y < n → Grown x x2 → Grown y y2 → pyEq x2 y2 = pyEq x y)
    {he : Bool} {req req2 : List Py} {other other2 : Py}
    (hr : GrownL req req2) (ho : Grown other other2)
    (hsz : sizeOf req + sizeOf other ≤ n) :
    anyListEqB he req2 other2 = anyListEqB he req other := by
  cases ho
  case list xs ys hxy =>
    rw [anyListEqB_list, anyListEqB_list, zip_all_eq_range_all, zip_all_eq_range_all]
    have hlen := grownL_length_eq hxy
    have hlr := grownL_length_eq hr
    have hm : min (listEffective he req2 ys).length ys.length =
        min (listEffective he req xs).length xs.length := by
      cases he with
      | false => simp [listEffective, hlen, hlr]
      | true =>
        rw [listEffective_true_length, listEffective_true_length]
        omega
    rw [hm]
    refine range_all_congr (fun i hi => ?_)
    have hixs : i < xs.length := lt_of_lt_of_le hi (min_le_right _ _)
    have hieff : i < (listEffective he req xs).length := lt_of_lt_of_le hi (min_le_left _ _)
    refine IH _ _ _ _ ?_ (listEffective_entries_grownP hr hlen hixs) (grownL_getD hxy hixs)
    have he1 := sizeOf_mem_listEffective (getD_mem hieff)
    have he2 : sizeOf (xs.getD i Py.none) < sizeOf xs := sizeOf_getD_lt hixs
    have hx : sizeOf xs < sizeOf (Py.list xs) := by simp +arith
    omega
  all_goals rw [anyListEqB_not_list (by simp), anyListEqB_not_list (by simp)]

theorem anySetEq_grown_aux {n : Nat}
    (IH : ∀ x y x2 y2 : Py,
      sizeOf x + sizeOf y < n → Grown x x2 → Grown y y2 → pyEq x2 y2 = pyEq x y)
    {req req2 : List Py} {other other2 : Py}
    (hr : GrownL req req2) (ho : Grown other other2)
    (hsz : sizeOf req + sizeOf other ≤ n) :
    anySetEq req2 other2 = anySetEq req other := by
  cases ho
  case list xs ys hxy =>
    rw [anySetEq_list, anySetEq_list]
    refine setAll_grown_aux IH hxy hr (fun x hx y hy => ?_)
    have h1 := List.sizeOf_lt_of_mem hx
    have h2 := List.sizeOf_lt_of_mem hy
    have h3 : sizeOf xs < sizeOf (Py.list xs) := by simp +arith
    omega
  all_goals rw [anySetEq_not_list (by simp), anySetEq_not_list (by simp)]

theorem anyUnionEq_grown_aux {n : Nat}
    (IH : ∀ x y x2 y2 : Py,
      sizeOf x + sizeOf y < n → Grown x x2 → Grown y y2 → pyEq x2 y2 = pyEq x y)
    {objs objs2 : List Py} {other other2 : Py}
    (hr : GrownL objs objs2) (ho : Grown other other2)
    (hsz : sizeOf objs + sizeOf other ≤ n) :
    anyUnionEq objs2 other2 = anyUnionEq objs other := by
  rw [anyUnionEq_eq, anyUnionEq_eq]
  refine unionAny_grown_aux IH ho hr (fun o hmo => ?_)
  have h1 := List.sizeOf_lt_of_mem hmo
  omega

theorem setAllL_grown_aux {n : Nat}
    (IH : ∀ x y x2 y2 : Py,
      sizeOf x + sizeOf y < n → Grown x x2 → Grown y y2 → pyEq x2 y2 = pyEq x y)
    {xs ys : List Py} (hcand : GrownL xs ys) :
    ∀ {req req2 : List Py}, GrownL req req2 →
      (∀ x ∈ req, ∀ y ∈ xs, sizeOf x + sizeOf y < n) →
      (req2.all fun x => ys.any fun y => pyEq x y) =
        (req.all fun x => xs.any fun y => pyEq x y) := by
  intro req req2 hr hb
  induction req generalizing req2 with
  | nil => cases hr; rfl
  | cons x req ihr =>
    cases hr with
    | cons hx hr2 =>
      simp only [List.all_cons]
      rw [setAnyCoreL_grown_aux IH hx hcand (fun y hy => hb x (List.mem_cons_self _ _) y hy),
        ihr hr2 (fun x2 hx2 y hy => hb x2 (List.mem_cons_of_mem _ hx2) y hy)]

theorem listPlain_grown_aux {n : Nat}
    (IH : ∀ x y x2 y2 : Py,
      sizeOf x + sizeOf y < n → Grown x x2 → Grown y y2 → pyEq x2 y2 = pyEq x y)
    {xs ys xs2 ys2 : List Py} (hx : GrownL xs xs2) (hy : GrownL ys ys2)
    (hsz : sizeOf xs + sizeOf ys ≤ n) :
    pyEqRefl (.list xs2) (.list ys2) = pyEqRefl (.list xs) (.list ys) := by
  rw [pyEqRefl_list_list, pyEqRefl_list_list]
  have hlx := grownL_length_eq hx
  have hly := grownL_length_eq hy
  congr 1
  · rw [← hlx, ← hly]
  · rw [zip_all_eq_range_all, zip_all_eq_range_all, ← hlx, ← hly]
    refine range_all_congr (fun i hi => ?_)
    have hi1 : i < xs.length := lt_of_lt_of_le hi (min_le_left _ _)
    have hi2 : i < ys.length := lt_of_lt_of_le hi (min_le_right _ _)
    refine IH _ _ _ _ ?_ (grownL_getD hx hi1) (grownL_getD hy hi2)
    have h1 := sizeOf_getD_lt hi1
    have h2 := sizeOf_getD_lt hi2
    omega

theorem dictPlainPair_grown_aux {n : Nat}
    (IH : ∀ x y x2 y2 : Py,
      sizeOf x + sizeOf y < n → Grown x x2 → Grown y y2 → pyEq x2 y2 = pyEq x y)
    {d1 e1 d2 e2 : List (PyKey × Py)} (h1 : GrownD d1 e1) (h2 : GrownD d2 e2)
    (hsz : sizeOf d1 + sizeOf d2 ≤ n) :
    pyEqRefl (.dict e1) (.dict e2) = pyEqRefl (.dict d1) (.dict d2) := by
  rw [pyEqRefl_dict_dict, pyEqRefl_dict_dict]
  congr 1
  · rw [← grownD_length_eq h1, ← grownD_length_eq h2]
  · refine dictPlain_grown_aux IH h2 h1 (fun kv hkv => ?_)
    have := sizeOf_snd_lt_of_mem hkv
    omega

theorem setPlainPair_grown_aux {n : Nat}
    (IH : ∀ x y x2 y2 : Py,
      sizeOf x + sizeOf y < n → Grown x x2 → Grown y y2 → pyEq x2 y2 = pyEq x y)
    {xs ys xs2 ys2 : List Py} (hx : GrownL xs xs2) (hy : GrownL ys ys2)
    (hsz : sizeOf xs + sizeOf ys ≤ n) :
    pyEqRefl (.set xs2) (.set ys2) = pyEqRefl (.set xs) (.set ys) := by
  rw [pyEqRefl_set_set, pyEqRefl_set_set]
  congr 1
  · refine setAllL_grown_aux IH hy hx (fun x hx2 y hy2 => ?_)
    have := List.sizeOf_lt_of_mem hx2
    have := List.sizeOf_lt_of_mem hy2
    omega
  · refine setAllL_grown_aux IH hx hy (fun y hy2 x hx2 => ?_)
    have := List.sizeOf_lt_of_mem hx2
    have := List.sizeOf_lt_of_mem hy2
    omega

theorem pyEqRefl_grown_aux {n : Nat}
    (IH : ∀ x y x2 y2 : Py,
      sizeOf x + sizeOf y < n → Grown x x2 → Grown y y2 → pyEq x2 y2 = pyEq x y)
    {a a2 b b2 : Py} (hA : Grown a a2) (hB : Grown b b2)
    (hsz : sizeOf a + sizeOf b ≤ n) :
    pyEqRefl a2 b2 = pyEqRefl a b := by
  cases hB
  case anyDict he d e hde =>
    rw [pyEqRefl_anyDict, pyEqRefl_anyDict]
    refine anyDictEq_grown_aux IH hde hA ?_
    have : sizeOf d < sizeOf (Py.anyDict he d) := by simp +arith
    omega
  case anyListC req req2 l pad hr hl hp =>
    rw [pyEqRefl_anyList, pyEqRefl_anyList]
    refine anyListEqB_grownC_aux IH hr hl hp hA ?_
    have : sizeOf req < sizeOf (Py.anyList true req) := by simp +arith
    omega
  case anyListP he req req2 hr =>
    rw [pyEqRefl_anyList, pyEqRefl_anyList]
    refine anyListEqB_grownP_aux IH hr hA ?_
    have : sizeOf req < sizeOf (Py.anyList he req) := by simp +arith
    omega
  case anySet req req2 hr =>
    rw [pyEqRefl_anySet, pyEqRefl_anySet]
    refine anySetEq_grown_aux IH hr hA ?_
    have : sizeOf req < sizeOf (Py.anySet req) := by simp +arith
    omega
  case anyType ty ty2 hty =>
    rw [pyEqRefl_anyType, pyEqRefl_anyType]
    exact anyTypeEq_grown hty hA
  case anyUnion objs objs2 hr =>
    rw [pyEqRefl_anyUnion, pyEqRefl_anyUnion]
    refine anyUnionEq_grown_aux IH hr hA ?_
    have : sizeOf objs < sizeOf (Py.anyUnion objs) := by simp +arith
    omega
  case anything =>
    rw [pyEqRefl_anything, pyEqRefl_anything]
  case list ys ys2 hys =>
    cases hA
    case list xs xs2 hxs =>
      refine listPlain_grown_aux IH hxs hys ?_
      have h1 : sizeOf xs < sizeOf (Py.list xs) := by simp +arith
      have h2 : sizeOf ys < sizeOf (Py.list ys) := by simp +arith
      omega
    all_goals simp [pyEqRefl]
  case dict d2 e2 hd2 =>
    cases hA
    case dict d1 e1 hd1 =>
      refine dictPlainPair_grown_aux IH hd1 hd2 ?_
      have h1 : sizeOf d1 < sizeOf (Py.dict d1) := by simp +arith
      have h2 : sizeOf d2 < sizeOf (Py.dict d2) := by simp +arith
      omega
    all_goals simp [pyEqRefl]
  case set ys ys2 hys =>
    cases hA
    case set xs xs2 hxs =>
      refine setPlainPair_grown_aux IH hxs hys ?_
      have h1 : sizeOf xs < sizeOf (Py.set xs) := by simp +arith
      have h2 : sizeOf ys < sizeOf (Py.set ys) := by simp +arith
      omega
    all_goals simp [pyEqRefl]
  all_goals
    cases hA <;> simp [pyEqRefl]

/-- Match results are invariant under the in-place Ellipsis extensions that
`AnyList.eq` performs: however the stored `required_items` of any `AnyList`
nodes inside the schema or the candidate have grown, every comparison
returns the same boolean as for the original trees. -/
theorem pyEq_grown {a b a2 b2 : Py} (hA : Grown a a2) (hB : Grown b b2) :
    pyEq a2 b2 = pyEq a b := by
  have main : ∀ (n : Nat) (x y x2 y2 : Py), sizeOf x + sizeOf y ≤ n →
      Grown x x2 → Grown y y2 → pyEq x2 y2 = pyEq x y := by
    intro n
    induction n using Nat.strong_induction_on with
    | _ n ih =>
      have IH : ∀ x y x2 y2 : Py,
          sizeOf x + sizeOf y < n → Grown x x2 → Grown y y2 → pyEq x2 y2 = pyEq x y :=
        fun x y x2 y2 hlt hx hy => ih (sizeOf x + sizeOf y) hlt x y x2 y2 (le_refl _) hx hy
      intro a b a2 b2 hab hA hB
      cases hA
      case anyDict he d e hde =>
        rw [pyEq_anyDict, pyEq_anyDict]
        refine anyDictEq_grown_aux IH hde hB ?_
        have : sizeOf d < sizeOf (Py.anyDict he d) := by simp +arith
        omega
      case anyListC req req2 l pad hr hl hp =>
        rw [pyEq_anyList, pyEq_anyList]
        refine anyListEqB_grownC_aux IH hr hl hp hB ?_
        have : sizeOf req < sizeOf (Py.anyList true req) := by simp +arith
        omega
      case anyListP he req req2 hr =>
        rw [pyEq_anyList, pyEq_anyList]
        refine anyListEqB_grownP_aux IH hr hB ?_
        have : sizeOf req < sizeOf (Py.anyList he req) := by simp +arith
        omega
      case anySet req req2 hr =>
        rw [pyEq_anySet, pyEq_anySet]
        refine anySetEq_grown_aux IH hr hB ?_
        have : sizeOf req < sizeOf (Py.anySet req) := by simp +arith
        omega
      case anyType ty ty2 hty =>
        rw [pyEq_anyType, pyEq_anyType]
        exact anyTypeEq_grown hty hB
      case anyUnion objs objs2 hr =>
        rw [pyEq_anyUnion, pyEq_anyUnion]
        refine anyUnionEq_grown_aux IH hr hB ?_
        have : sizeOf objs < sizeOf (Py.anyUnion objs) := by simp +arith
        omega
      case anything =>
        rw [pyEq_anything, pyEq_anything]
      case none =>
        rw [pyEq_noneL, pyEq_noneL]
        exact pyEqRefl_grown_aux IH Grown.none hB hab
      case bool x =>
        rw [pyEq_boolL, pyEq_boolL]
        exact pyEqRefl_grown_aux IH (Grown.bool x) hB hab
      case int m =>
        rw [pyEq_intL, pyEq_intL]
        exact pyEqRefl_grown_aux IH (Grown.int m) hB hab
      case float m =>
        rw [pyEq_floatL, pyEq_floatL]
        exact pyEqRefl_grown_aux IH (Grown.float m) hB hab
      case str s =>
        rw [pyEq_strL, pyEq_strL]
        exact pyEqRefl_grown_aux IH (Grown.str s) hB hab
      case ellipsis =>
        rw [pyEq_ellipsisL, pyEq_ellipsisL]
        exact pyEqRefl_grown_aux IH Grown.ellipsis hB hab
      case typeTag t =>
        rw [pyEq_typeTagL, pyEq_typeTagL]
        exact pyEqRefl_grown_aux IH (Grown.typeTag t) hB hab
      case list xs xs2 hxs =>
        rw [pyEq_listL, pyEq_listL]
        exact pyEqRefl_grown_aux IH (Grown.list hxs) hB hab
      case dict d1 e1 hd1 =>
        rw [pyEq_dictL, pyEq_dictL]
        exact pyEqRefl_grown_aux IH (Grown.dict hd1) hB hab
      case set xs xs2 hxs =>
        rw [pyEq_setL, pyEq_setL]
        exact pyEqRefl_grown_aux IH (Grown.set hxs) hB hab
  exact main (sizeOf a + sizeOf b) a b a2 b2 (le_refl _) hA hB

theorem grownL_refl (xs : List Py) : GrownL xs xs :=
  grownL_of_forall (fun x _ => Grown.refl x)

theorem grownPad_replicate (l : Py) (k : Nat) : GrownPad l (List.replicate k l) := by
  induction k with
  | zero => exact .nil
  | succ k ih => simpa [List.replicate_succ] using GrownPad.cons (Grown.refl l) ih

/-- The in-place growth of `self.required_items` performed by one
`AnyList.eq` call is a `Grown` step of the node, so by `pyEq_grown` it
cannot change any later match result. -/
theorem anyListRequiredAfter_grown (he : Bool) (req : List Py) (other : Py)
    (hne : he = true → req ≠ []) :
    Grown (.anyList he req) (.anyList he (anyListRequiredAfter he req other)) := by
  unfold anyListRequiredAfter
  cases other <;> try exact Grown.anyListP (grownL_refl req)
  rename_i xs
  cases he with
  | false => simpa using Grown.anyListP (grownL_refl req)
  | true =>
    have hne2 : req ≠ [] := hne rfl
    have hl : req.getLast? = some (req.getLast hne2) := List.getLast?_eq_getLast req hne2
    simp only [if_true, hl, Option.getD_some]
    exact Grown.anyListC (grownL_refl req) hl
      (grownPad_replicate _ (xs.length - req.length))

/-! ### Debug mode: `__eq_impl` with `DEBUG = True`

With the debug flag on, `AnyBase.__eq_impl` raises `TypeError("Schema does
not match: ...")` whenever the `eq` result of the dispatched node is false —
at any depth, because every nested comparison that touches a schema node
goes through `__eq_impl` too.  `eqD a b` is `a == b` under `DEBUG = True`:
`.ok r` when the comparison returns, `.error .typeError` when it raises. -/

def allMemM {α : Type} : (l : List α) → ((x : α) → x ∈ l → Except PyErr Bool) →
    Except PyErr Bool
  | [], _ => .ok true
  | x :: xs, f => do
    let r ← f x (List.mem_cons_self x xs)
    if r then allMemM xs (fun y hy => f y (List.mem_cons_of_mem x hy)) else .ok false

def anyMemM {α : Type} : (l : List α) → ((x : α) → x ∈ l → Except PyErr Bool) →
    Except PyErr Bool
  | [], _ => .ok false
  | x :: xs, f => do
    let r ← f x (List.mem_cons_self x xs)
    if r then .ok true else anyMemM xs (fun y hy => f y (List.mem_cons_of_mem x hy))

mutual

/-- Python `a == b` with `DEBUG = True`: left-operand dispatch, where a
schema node's false result is promoted to a raised `TypeError`. -/
def eqD (a b : Py) : Except PyErr Bool :=
  match a with
  | .anyDict he req => do
    let r ← anyDictEqD he req b
    if r then .ok true else .error .typeError
  | .anyList he req => do
    let r ← anyListEqD he req b
    if r then .ok true else .error .typeError
  | .anySet req => do
    let r ← anySetEqD req b
    if r then .ok true else .error .typeError
  | .anyType ty => do
    let r ← anyTypeEqE ty b
    if r then .ok true else .error .typeError
  | .anyUnion objs => do
    let r ← anyUnionEqD objs b
    if r then .ok true else .error .typeError
  | .anything => .ok true
  | .none => eqDRefl .none b
  | .bool x => eqDRefl (.bool x) b
  | .int n => eqDRefl (.int n) b
  | .float n => eqDRefl (.float n) b
  | .str s => eqDRefl (.str s) b
  | .list xs => eqDRefl (.list xs) b
  | .dict d => eqDRefl (.dict d) b
  | .set xs => eqDRefl (.set xs) b
  | .ellipsis => eqDRefl .ellipsis b
  | .typeTag t => eqDRefl (.typeTag t) b
termination_by 2 * (sizeOf a + sizeOf b) + 1
decreasing_by
  all_goals simp_wf
  all_goals omega

/-- Reflected dispatch and plain comparisons with `DEBUG = True`. -/
def eqDRefl (a b : Py) : Except PyErr Bool :=
  match b with
  | .anyDict he req => do
    let r ← anyDictEqD he req a
    if r then .ok true else .error .typeError
  | .anyList he req => do
    let r ← anyListEqD he req a
    if r then .ok true else .error .typeError
  | .anySet req => do
    let r ← anySetEqD req a
    if r then .ok true else .error .typeError
  | .anyType ty => do
    let r ← anyTypeEqE ty a
    if r then .ok true else .error .typeError
  | .anyUnion objs => do
    let r ← anyUnionEqD objs a
    if r then .ok true else .error .typeError
  | .anything => .ok true
  | .none => .ok (match a with | .none => true | _ => false)
  | .bool y =>
    .ok (match a with
     | .bool x => x == y
     | .int n => n == (if y then (1 : Int) else 0)
     | .float n => n == (if y then (1 : Int) else 0)
     | _ => false)
  | .int m =>
    .ok (match a with
     | .bool x => (if x then (1 : Int) else 0) == m
     | .int n => n == m
     | .float n => n == m
     | _ => false)
  | .float m =>
    .ok (match a with
     | .bool x => (if x then (1 : Int) else 0) == m
     | .int n => n == m
     | .float n => n == m
     | _ => false)
  | .str s2 => .ok (match a with | .str s => s == s2 | _ => false)
  | .list ys =>
    (match a with
     | .list xs =>
       if xs.length == ys.length then
         allMemM (xs.zip ys) (fun p hp => eqD p.1 p.2)
       else .ok false
     | _ => .ok false)
  | .dict d2 =>
    (match a with
     | .dict d1 =>
       if d1.length == d2.length then
         allMemM d1 (fun kv hkv =>
           match halo : alookup kv.1 d2 with
           | some w => eqD kv.2 w
           | Option.none => .ok false)
       else .ok false
     | _ => .ok false)
  | .set ys =>
    (match a with
     | .set xs => do
       let r ← allMemM xs (fun x hx => anyMemM ys (fun y hy => eqD x y))
       if r then allMemM ys (fun y hy => anyMemM xs (fun x hx => eqD y x))
       else .ok false
     | _ => .ok false)
  | .ellipsis => .ok (match a with | .ellipsis => true | _ => false)
  | .typeTag t2 => .ok (match a with | .typeTag t1 => t1 == t2 | _ => false)
termination_by 2 * (sizeOf a + sizeOf b)
decreasing_by
  all_goals simp_wf
  all_goals
    first
    | omega
    | (obtain ⟨hz1, hz2⟩ := List.of_mem_zip hp
       have hb1 := List.sizeOf_lt_of_mem hz1
       have hb2 := List.sizeOf_lt_of_mem hz2
       omega)
    | (have hb1 := sizeOf_snd_lt_of_mem hkv
       have hb2 := sizeOf_snd_lt_of_mem (alookup_mem halo)
       omega)
    | (have hb1 := List.sizeOf_lt_of_mem hx
       have hb2 := List.sizeOf_lt_of_mem hy
       omega)

/-- `AnyDict.eq` under debug: nested mismatches on schema-node values raise
out of the `all`. -/
def anyDictEqD (he : Bool) (req : List (PyKey × Py)) (other : Py) : Except PyErr Bool :=
  match other with
  | .dict d =>
    allMemM (dictEffective he req d)
      (fun kv hkv => eqD ((alookup kv.1 d).getD Py.none) kv.2)
  | _ => .ok false
termination_by 2 * (sizeOf req + sizeOf other)
decreasing_by
  all_goals simp_wf
  all_goals
    (have hb1 := sizeOf_mem_dictEffective hkv
     have hb2 := sizeOf_alookup_getD (k := kv.1) (d := d1)
     omega)

/-- `AnyList.eq` under debug. -/
def anyListEqD (he : Bool) (req : List Py) (other : Py) : Except PyErr Bool :=
  match other with
  | .list xs =>
    allMemM ((listEffective he req xs).zip xs) (fun p hp => eqD p.1 p.2)
  | _ => .ok false
termination_by 2 * (sizeOf req + sizeOf other)
decreasing_by
  all_goals simp_wf
  all_goals
    (obtain ⟨hz1, hz2⟩ := List.of_mem_zip hp
     have hb1 := sizeOf_mem_listEffective hz1
     have hb2 := List.sizeOf_lt_of_mem hz2
     omega)

/-- `AnySet.eq` under debug. -/
def anySetEqD (req : List Py) (other : Py) : Except PyErr Bool :=
  match other with
  | .list xs => allMemM req (fun x hx => anyMemM xs (fun y hy => eqD y x))
  | _ => .ok false
termination_by 2 * (sizeOf req + sizeOf other)
decreasing_by
  all_goals simp_wf
  all_goals
    (have hb1 := List.sizeOf_lt_of_mem hx
     have hb2 := List.sizeOf_lt_of_mem hy
     omega)

/-- `AnyUnion.eq` under debug: `any(obj == other for obj in objs)`, where a
failing schema-node alternative raises before later alternatives are ever
tried. -/
def anyUnionEqD (objs : List Py) (other : Py) : Except PyErr Bool :=
  anyMemM objs (fun o ho => eqD o other)
termination_by 2 * (sizeOf objs + sizeOf other)
decreasing_by
  all_goals simp_wf
  all_goals
    (have hb1 := List.sizeOf_lt_of_mem ho
     omega)

end

/-! ### Claim-level definitions and theorems -/

/-- Specification model for claim C8, following the claim's own wording:
matching is decided by comparing up to `min (len effective) (len c)`
positions, where `effective` is the explicit sequence `p` extended — only
when the repeat-last flag is set — by repeating `p`'s final element to
cover `len c - len p` positions; any unequal pair fails and longer
candidates are otherwise accepted. -/
def listMatchSpec (hasRepeat : Bool) (p c : List Py) : Bool :=
  let effective :=
    if hasRepeat then
      p ++ List.replicate (c.length - p.length) ((p.getLast?).getD Py.none)
    else p
  (List.range (min effective.length c.length)).all fun i =>
    pyEq (effective.getD i Py.none) (c.getD i Py.none)

theorem except_bind_ok {α β γ : Type} (a : α) (f : α → Except γ β) :
    (Except.ok a >>= f) = f a := rfl

theorem except_bind_error {α β γ : Type} (e : γ) (f : α → Except γ β) :
    ((Except.error e : Except γ α) >>= f) = .error e := rfl

theorem pyEq_list_singleton_ellipsis (items : List Py) :
    pyEq (.list items) (.list [Py.ellipsis]) = true ↔
      ∃ x, items = [x] ∧ pyEq x Py.ellipsis = true := by
  cases items with
  | nil => simp [pyEqRefl]
  | cons x t =>
    cases t with
    | nil =>
      simp [pyEqRefl, List.zip_cons_cons]
    | cons y t2 =>
      simp [pyEqRefl]

/-- C1: the claim says no schema node is ever mutated by matching.  In the
code, `AnyList.eq` executes `required_items += [...]` on an alias of
`self.required_items`, so matching an Ellipsis-flagged `AnyList` against a
longer list grows the node's stored items in place: after validating
`[1, 1, 1]` against `Any([1, ...])`, `self.required_items` is `[1, 1, 1]`,
no longer the constructed `[1]`. -/
theorem anyList_eq_mutates_node :
    anyListRequiredAfter true [Py.int 1] (.list [.int 1, .int 1, .int 1]) =
      [Py.int 1, Py.int 1, Py.int 1] ∧
    [Py.int 1, Py.int 1, Py.int 1] ≠ [Py.int 1] := by
  constructor
  · rfl
  · simp

/-- C10: `Any([])` enters the list branch of the builder and
`AnyList.__init__` evaluates `items[-1]` unconditionally after its two
asserts pass vacuously, raising `IndexError` on the empty list, so no
`ListMatch` over an empty explicit sequence can be built. -/
theorem any_empty_list_raises_indexError :
    anyB [.list []] = .error .indexError ∧ anyListInit [] = .error .indexError := by
  constructor
  · simp [anyB, any1, inTags, pyEqRefl, anyListInit]
  · simp [anyListInit]

/-- C4 counterexample: the claim says literal matching rejects Bool/Number
cross-matches, in particular that validating `True` against the literal
schema `1` is false.  The code's literal comparison is plain Python `==`,
under which `1 == True`, so validation returns true. -/
theorem literal_int_one_accepts_true :
    validate (.int 1) (.bool true) = true := by
  simp [validate, pyEqRefl]

/-- C4 amended: literal exact-match uses the host equality, under which a
boolean equals its numeric value: the literal schema `n` accepts the Bool
candidate `x` iff `n` is `x`'s numeric value (so `1` accepts `True`), and
symmetrically for a Bool literal against an integer candidate; the
Bool/Number rejection exists only in `TypeMatch` (`AnyType(int)` rejects
every Bool candidate). -/
theorem literal_bool_int_cross_matches :
    ∀ (m : Int) (x : Bool),
      validate (.int m) (.bool x) = (m == (if x then (1 : Int) else 0)) ∧
      validate (.bool x) (.int m) = ((if x then (1 : Int) else 0) == m) ∧
      validate (.anyType (.typeTag .int)) (.bool x) = false := by
  intro m x
  refine ⟨?_, ?_, ?_⟩ <;> simp [validate, pyEqRefl, anyTypeEq]

/-- C5 counterexample: the claim says the Number-kind TypeMatch accepts
every integer-kind and every float-kind candidate.  The code has no Number
kind: `AnyType(int)` rejects float candidates and `AnyType(float)` rejects
integer candidates, so no single TypeMatch accepts both. -/
theorem no_anyType_accepts_int_and_float :
    validate (.anyType (.typeTag .int)) (.float 1) = false ∧
    validate (.anyType (.typeTag .float)) (.int 1) = false := by
  constructor <;> simp [validate, anyTypeEq, isinst]

/-- C5 amended: `AnyType` is per-concrete-type: `AnyType(int)` accepts
exactly the integer-kind candidates (rejecting Bool and float kinds),
`AnyType(float)` exactly the float-kind candidates, and `AnyType(bool)`
exactly the Bool-kind candidates. -/
theorem anyType_accepts_exactly_its_kind :
    ∀ v : Py,
      (validate (.anyType (.typeTag .int)) v =
        (match v with | .int _ => true | _ => false)) ∧
      (validate (.anyType (.typeTag .float)) v =
        (match v with | .float _ => true | _ => false)) ∧
      (validate (.anyType (.typeTag .bool)) v =
        (match v with | .bool _ => true | _ => false)) := by
  intro v
  refine ⟨?_, ?_, ?_⟩ <;> cases v <;> simp [validate, anyTypeEq, isinst]

/-- C6: the claim (and the builder's docstring) says a single argument that
is not a type tag nor a dict/list/set literal — including an already-built
schema node — is returned unchanged, and matching with the result never
raises.  The membership test `obj in t.get_args(JsonValueType)` dispatches
Python `==`, so `Anything()` (whose `eq` accepts everything) passes it:
`Any(Anything())` returns `AnyType(Anything())`, not the node itself, and
matching with it calls `isinstance(candidate, Anything())`, which raises
`TypeError` because the second argument is not a type. -/
theorem any_of_anything_builds_broken_anyType :
    anyB [.anything] = .ok (.anyType .anything) ∧
    Py.anyType .anything ≠ Py.anything ∧
    anyTypeEqE .anything (.str "x") = .error .typeError := by
  refine ⟨?_, by simp, rfl⟩
  simp [anyB, any1, inTags]

/-- C2: repeated validation is deterministic even though `AnyList.eq`
mutates the node in place.  The only mutation anywhere in the matcher is
the Ellipsis extension of `self.required_items` (`anyListRequiredAfter`);
the second conjunct shows each such step keeps the schema inside the
`Grown` relation, and the first that every comparison returns the same
boolean on `Grown`-related trees, so a second `validate(v)` call on the
mutated validator returns the same boolean as the first. -/
theorem validate_repeated_deterministic :
    (∀ s s2 v v2 : Py, Grown s s2 → Grown v v2 → validate s2 v2 = validate s v) ∧
    (∀ (he : Bool) (req : List Py) (other : Py), (he = true → req ≠ []) →
      Grown (.anyList he req) (.anyList he (anyListRequiredAfter he req other))) := by
  constructor
  · intro s s2 v v2 hs hv
    exact pyEq_grown hs hv
  · exact anyListRequiredAfter_grown

theorem validate_repeated_deterministic_witness :
    Grown (Py.anyList true [Py.int 1])
      (Py.anyList true (anyListRequiredAfter true [Py.int 1] (Py.list [Py.int 1, Py.int 1]))) ∧
    validate (Py.anyList true (anyListRequiredAfter true [Py.int 1] (Py.list [Py.int 1, Py.int 1])))
        (Py.list [Py.int 1, Py.int 1]) =
      validate (Py.anyList true [Py.int 1]) (Py.list [Py.int 1, Py.int 1]) := by
  have hstep := validate_repeated_deterministic.2 true [Py.int 1]
    (Py.list [Py.int 1, Py.int 1]) (fun _ => by simp)
  exact ⟨hstep, validate_repeated_deterministic.1 _ _ _ _ hstep (Grown.refl _)⟩

/-- C3 counterexample: the claim says a candidate missing an explicitly
listed key always fails, regardless of the associated subschema, including
a wildcard or the literal null.  The code compares
`other.get(k, None) == v`, so a missing key is matched as the value `None`:
a listed key whose subschema is `Anything()` (or the literal `None`)
accepts a candidate that lacks the key entirely. -/
theorem missing_key_with_wildcard_matches :
    validate (.anyDict false [(PyKey.kStr "k", Py.anything)]) (.dict []) = true ∧
    validate (.anyDict false [(PyKey.kStr "k", Py.none)]) (.dict []) = true := by
  constructor <;> simp [validate, dictEffective, alookup, pyEqRefl]

/-- C3 amended: a missing explicitly listed key is compared as the value
null (`None`): the match fails whenever the subschema at that key does not
match null — in particular for every literal other than null and every
non-wildcard type or container schema — but a wildcard or null subschema
accepts the absence. -/
theorem missing_key_fails_unless_null_matches :
    ∀ (he : Bool) (req d : List (PyKey × Py)) (k : PyKey) (v : Py),
      (k, v) ∈ req → k ≠ PyKey.kEll → alookup k d = Option.none →
      pyEq Py.none v = false →
      validate (.anyDict he req) (.dict d) = false := by
  intro he req d k v hkv hk halo hnull
  rw [validate, pyEq_anyDict, anyDictEq_dict]
  have hmem : (k, v) ∈ dictEffective he req d := by
    unfold dictEffective
    have hf : (k, v) ∈ req.filter (fun kv => decide (kv.1 ≠ PyKey.kEll)) :=
      List.mem_filter.mpr ⟨hkv, by simp [hk]⟩
    cases he with
    | false => simpa using hf
    | true => simp only [if_true]; exact List.mem_append_left _ hf
  rw [List.all_eq_false]
  refine ⟨(k, v), hmem, ?_⟩
  simp only [halo, Option.getD_none]
  simp [hnull]

theorem missing_key_fails_unless_null_matches_witness :
    ((PyKey.kStr "k", Py.int 5) ∈ [(PyKey.kStr "k", Py.int 5)] ∧
      PyKey.kStr "k" ≠ PyKey.kEll ∧
      alookup (PyKey.kStr "k") [] = Option.none ∧
      pyEq Py.none (Py.int 5) = false) ∧
    validate (.anyDict false [(PyKey.kStr "k", Py.int 5)]) (.dict []) = false := by
  refine ⟨⟨by simp, by simp, rfl, by simp [pyEqRefl]⟩, ?_⟩
  exact missing_key_fails_unless_null_matches false _ [] (PyKey.kStr "k") (Py.int 5)
    (by simp) (by simp) rfl (by simp [pyEqRefl])

/-- C7 counterexample: the claim says construction succeeds for every list
whose non-final elements are arbitrary schema nodes such as the wildcard.
The sentinel checks of `AnyList.__init__` use Python `==`, which dispatches
into the nodes' `eq`; `Anything() == ...` is true, so a non-final wildcard
is mistaken for a misplaced sentinel and the assert raises. -/
theorem wildcard_nonfinal_raises_at_construction :
    anyListInit [.anything, .int 1] = .error .assertionError := by
  simp [anyListInit]

/-- C7 amended: `AnyList` construction fails iff the sentinel detection
(which compares with schema-dispatching `==`) fires: some non-final item
compares equal to the Ellipsis sentinel (this includes wildcard schema
nodes, not only the sentinel itself), or the list is a single item that
compares equal to the sentinel, or the list is empty (`items[-1]` raises
`IndexError`); a trailing such item instead silently sets the repeat flag. -/
theorem anyListInit_error_characterization :
    ∀ items : List Py,
      (∃ e, anyListInit items = .error e) ↔
        (items = [] ∨
          (∃ x ∈ items.dropLast, pyEq x Py.ellipsis = true) ∨
          (∃ x, items = [x] ∧ pyEq x Py.ellipsis = true)) := by
  intro items
  unfold anyListInit
  by_cases h1 : items.dropLast.any (fun it => pyEq it Py.ellipsis) = true
  · simp only [h1, if_true]
    constructor
    · intro _
      right; left
      simpa using List.any_eq_true.mp h1
    · intro _
      exact ⟨.assertionError, rfl⟩
  · simp only [Bool.not_eq_true] at h1
    simp only [h1, Bool.false_eq_true, if_false]
    by_cases h2 : pyEq (.list items) (.list [Py.ellipsis]) = true
    · simp only [h2, if_true]
      constructor
      · intro _
        right; right
        exact (pyEq_list_singleton_ellipsis items).mp h2
      · intro _
        exact ⟨.assertionError, rfl⟩
    · simp only [Bool.not_eq_true] at h2
      simp only [h2, Bool.false_eq_true, if_false]
      cases hlast : items.getLast? with
      | none =>
        have : items = [] := by
          cases items with
          | nil => rfl
          | cons x t => rw [List.getLast?_eq_getLast _ (by simp)] at hlast; simp at hlast
        subst this
        simp
      | some last =>
        have hne : items ≠ [] := by
          intro h
          subst h
          simp at hlast
        constructor
        · intro ⟨e, he⟩
          simp at he
        · intro h
          rcases h with h | ⟨x, hx, hpx⟩ | ⟨x, hx, hpx⟩
          · exact absurd h hne
          · have hany : items.dropLast.any (fun it => pyEq it Py.ellipsis) = true :=
              List.any_eq_true.mpr ⟨x, hx, hpx⟩
            rw [hany] at h1
            simp at h1
          · subst hx
            have : pyEq (.list [x]) (.list [Py.ellipsis]) = true :=
              (pyEq_list_singleton_ellipsis [x]).mpr ⟨x, rfl, hpx⟩
            rw [this] at h2
            simp at h2

/-- C8: `ListMatch` semantics hold exactly as the claim states them:
matching compares `min (len effective) (len candidate)` positions where
`effective` extends the explicit sequence by repeating its final element
only under the repeat-last flag, an unequal pair fails, longer candidates
are otherwise accepted; in particular `ListMatch([1,2])` matches `[1,2]`
and `[1,2,3]` but not `[2,1]`, and `ListMatch([Any(int), repeat])` matches
`[1,2,3]` but not `[1,"2",3]`. -/
theorem anyList_matches_listMatchSpec :
    (∀ (he : Bool) (p c : List Py),
      validate (.anyList he p) (.list c) = listMatchSpec he p c) ∧
    anyListInit [.int 1, .int 2] = .ok (.anyList false [.int 1, .int 2]) ∧
    validate (.anyList false [.int 1, .int 2]) (.list [.int 1, .int 2]) = true ∧
    validate (.anyList false [.int 1, .int 2]) (.list [.int 1, .int 2, .int 3]) = true ∧
    validate (.anyList false [.int 1, .int 2]) (.list [.int 2, .int 1]) = false ∧
    anyListInit [.anyType (.typeTag .int), .ellipsis] =
      .ok (.anyList true [.anyType (.typeTag .int)]) ∧
    validate (.anyList true [.anyType (.typeTag .int)])
      (.list [.int 1, .int 2, .int 3]) = true ∧
    validate (.anyList true [.anyType (.typeTag .int)])
      (.list [.int 1, .str "2", .int 3]) = false := by
  refine ⟨?_, ?_, ?_, ?_, ?_, ?_, ?_, ?_⟩
  · intro he p c
    rw [validate, pyEq_anyList, anyListEqB_list, zip_all_eq_range_all]
    simp only [listMatchSpec, listEffective]
  · simp [anyListInit, pyEqRefl]
  · simp [validate, listEffective, pyEqRefl]
  · simp [validate, listEffective, pyEqRefl]
  · simp [validate, listEffective, pyEqRefl]
  · simp [anyListInit, pyEqRefl, anyTypeEq, isinst]
  · simp [validate, listEffective, anyTypeEq, isinst]
  · simp [validate, listEffective, anyTypeEq, isinst]

/-- C9 counterexample: the claim says debug mode raises only at the
top-level comparison, so a union whose first alternative fails but a later
one succeeds still returns true.  In the code every schema-node comparison
goes through `__eq_impl`, which raises immediately on a false result: with
debug on, `Any(bool, "success")`-style unions raise on the failing first
alternative even though `"success"` would match. -/
theorem debug_union_raises_despite_later_match :
    eqD (.anyUnion [.anyType (.typeTag .bool), .str "success"]) (.str "success") =
      .error .typeError := by
  rw [eqD]
  simp [anyUnionEqD, anyMemM, eqD, anyTypeEqE, isinst, except_bind_ok, except_bind_error]

/-- C9 amended: with debug enabled a failed comparison is promoted to an
error wherever it dispatches through a schema node's equality, at any
depth: a union whose first alternative raises propagates that error no
matter what later alternatives would do; only failing plain-literal
comparisons stay silent. -/
theorem debug_union_propagates_first_alternative_error :
    ∀ (alt : Py) (rest : List Py) (v : Py) (e : PyErr),
      eqD alt v = .error e →
      eqD (.anyUnion (alt :: rest)) v = .error e := by
  intro alt rest v e h
  rw [eqD]
  simp [anyUnionEqD, anyMemM, h, except_bind_error]

theorem debug_union_propagates_first_alternative_error_witness :
    eqD (.anyType (.typeTag .bool)) (.str "ok") = .error .typeError ∧
    eqD (.anyUnion [.anyType (.typeTag .bool), .str "ok"]) (.str "ok") =
      .error .typeError := by
  have h : eqD (.anyType (.typeTag .bool)) (.str "ok") = .error .typeError := by
    rw [eqD]
    simp [anyTypeEqE, isinst, except_bind_ok]
  exact ⟨h, debug_union_propagates_first_alternative_error _ [.str "ok"] _ _ h⟩
